import Mathlib

set_option maxHeartbeats 1600000
set_option synthInstance.maxHeartbeats 200000
set_option maxRecDepth 4000

/- Verification of the aggregation engine in `src/archiefassistent/aggregation.py`.

   Modelling conventions (shallow embedding):
   * Python strings are `List Char`; `pych` converts a Lean string literal.
   * JSON-like Python values are `JVal`; numbers are restricted to integers
     (the claims under study do not hinge on fractional values).
   * Python dicts are insertion-ordered association lists (`PyDict`);
     genuine Python dicts never carry duplicate keys, so theorems about
     per-key behaviour may assume `Nodup` key lists.
   * `Option` models raising: a `none` result of an `…E` function means an
     uncaught Python exception propagates to the caller.
   * `json.dumps(·, ensure_ascii=False, sort_keys=True)` is modelled by
     `dumps` (canonical key ordering, `", "`/`": "` separators, short
     escapes for quote/backslash/newline/tab/CR/backspace/formfeed; other
     control characters are emitted literally, which does not affect any
     equality/injectivity fact used below).
   * `json.loads` is modelled by `jsonLoads`, a parser for the same
     canonical grammar fragment. -/

def pych (s : String) : List Char := s.data

def isSpaceCh (c : Char) : Bool :=
  c = ' ' || c = '\t' || c = '\n' || c = '\r' || c = '\x0b' || c = '\x0c'

/-- Python `str.strip()`: drop leading and trailing whitespace. -/
def pyStrip (s : List Char) : List Char :=
  ((s.dropWhile isSpaceCh).reverse.dropWhile isSpaceCh).reverse

def toLowerStr (s : List Char) : List Char := s.map Char.toLower

def isDigitCh (c : Char) : Bool := 48 ≤ c.toNat && c.toNat ≤ 57

def digitVal (c : Char) : Nat := c.toNat - 48

/-- JSON-like Python values (numbers restricted to integers). -/
inductive JVal where
  | null : JVal
  | bool : Bool → JVal
  | int : Int → JVal
  | str : List Char → JVal
  | arr : List JVal → JVal
  | obj : List (List Char × JVal) → JVal

abbrev PyDict := List (List Char × JVal)

/-- Python `d.get(k)` on an insertion-ordered association list. -/
def dGet {α : Type} : List (List Char × α) → List Char → Option α
  | [], _ => none
  | (k', v) :: rest, k => if k = k' then some v else dGet rest k

/-- Python `d[k] = v`: update in place when the key exists, else append. -/
def dSet {α : Type} : List (List Char × α) → List Char → α → List (List Char × α)
  | [], k, v => [(k, v)]
  | (k', v') :: rest, k, v =>
    if k = k' then (k, v) :: rest else (k', v') :: dSet rest k v

/-- Python `k in d`. -/
def dMem {α : Type} (d : List (List Char × α)) (k : List Char) : Bool :=
  (dGet d k).isSome

/-- Python `x in (None, "", [], {})` for JSON-like `x`. -/
def isEmptyVal : JVal → Bool
  | .null => true
  | .str [] => true
  | .arr [] => true
  | .obj [] => true
  | _ => false

/-- Python truthiness of a JSON-like value. -/
def pyTruthy : JVal → Bool
  | .null => false
  | .bool b => b
  | .int n => n ≠ 0
  | .str s => !s.isEmpty
  | .arr l => !l.isEmpty
  | .obj l => !l.isEmpty

def isNullB : JVal → Bool
  | .null => true
  | _ => false

def isObjB : JVal → Bool
  | .obj _ => true
  | _ => false

/-- `item is None or (str and blank) or [] or {}`: the skip test of
`_first_non_empty` (note the whitespace-only-string case). -/
def isSkippable : JVal → Bool
  | .null => true
  | .str s => pyStrip s = []
  | .arr [] => true
  | .obj [] => true
  | _ => false

/-- `_first_non_empty` from the source; Python's `None` result is `.null`. -/
def first_non_empty : List JVal → JVal
  | [] => .null
  | v :: rest => if isSkippable v then first_non_empty rest else v

/-- Decimal digits of a natural number, most significant first. -/
def digitCh : Nat → Char
  | 0 => '0' | 1 => '1' | 2 => '2' | 3 => '3' | 4 => '4'
  | 5 => '5' | 6 => '6' | 7 => '7' | 8 => '8' | _ => '9'

def natDecimal (n : Nat) : List Char :=
  if _h : n < 10 then [digitCh n]
  else natDecimal (n / 10) ++ [digitCh (n % 10)]
decreasing_by exact Nat.div_lt_self (by omega) (by omega)

/-- Python decimal rendering of an integer (`str`/`repr`/`json.dumps`). -/
def intDec (n : Int) : List Char :=
  if n < 0 then '-' :: natDecimal n.natAbs else natDecimal n.toNat

/-- JSON string escaping as in `json.dumps(…, ensure_ascii=False)`
(short escapes; see the header comment for the model boundary). -/
def escCh (c : Char) : List Char :=
  if c = '"' then ['\\', '"']
  else if c = '\\' then ['\\', '\\']
  else if c = '\n' then ['\\', 'n']
  else if c = '\t' then ['\\', 't']
  else if c = '\r' then ['\\', 'r']
  else if c = '\x08' then ['\\', 'b']
  else if c = '\x0c' then ['\\', 'f']
  else [c]

def escapeStr : List Char → List Char
  | [] => []
  | c :: cs => escCh c ++ escapeStr cs

mutual
/-- Order-preserving JSON rendering with `", "`/`": "` separators
(the `json.dumps` default). -/
def serialize : JVal → List Char
  | .null => pych "null"
  | .bool true => pych "true"
  | .bool false => pych "false"
  | .int n => intDec n
  | .str s => '"' :: (escapeStr s ++ ['"'])
  | .arr xs => '[' :: (serializeList xs ++ [']'])
  | .obj kvs => '\x7b' :: (serializeEntries kvs ++ ['\x7d'])

def serializeList : List JVal → List Char
  | [] => []
  | [x] => serialize x
  | x :: y :: xs => serialize x ++ ',' :: ' ' :: serializeList (y :: xs)

def serializeEntries : PyDict → List Char
  | [] => []
  | [(k, v)] => '"' :: (escapeStr k ++ '"' :: ':' :: ' ' :: serialize v)
  | (k, v) :: e :: rest =>
    '"' :: (escapeStr k ++ '"' :: ':' :: ' ' :: serialize v)
      ++ ',' :: ' ' :: serializeEntries (e :: rest)
end

/-- Lexicographic comparison on code points (Python string `<=`). -/
def lexLe : List Char → List Char → Bool
  | [], _ => true
  | _ :: _, [] => false
  | a :: as, b :: bs =>
    if a.toNat < b.toNat then true
    else if b.toNat < a.toNat then false
    else lexLe as bs

def insertByKey (x : List Char × JVal) : PyDict → PyDict
  | [] => [x]
  | y :: ys => if lexLe x.1 y.1 then x :: y :: ys else y :: insertByKey x ys

def sortByKey (l : PyDict) : PyDict := l.foldr insertByKey []

mutual
/-- Recursively sort object keys: the value shape `sort_keys=True`
serializes. `canon a = canon b` is extensional (Python `==`) equality
of JSON-like values built from duplicate-free dicts. -/
def canon : JVal → JVal
  | .arr xs => .arr (canonList xs)
  | .obj kvs => .obj (sortByKey (canonEntries kvs))
  | v => v

def canonList : List JVal → List JVal
  | [] => []
  | x :: xs => canon x :: canonList xs

def canonEntries : PyDict → PyDict
  | [] => []
  | (k, v) :: rest => (k, canon v) :: canonEntries rest
end

/-- `json.dumps(v, ensure_ascii=False, sort_keys=True)`. -/
def dumps (v : JVal) : List Char := serialize (canon v)

mutual
/-- Python `repr` of a JSON-like value (string escaping simplified);
only reachable through `str()` of compound values inside
`_norm_scalar`, where no claim depends on its fine structure. -/
def pyRepr : JVal → List Char
  | .null => pych "None"
  | .bool true => pych "True"
  | .bool false => pych "False"
  | .int n => intDec n
  | .str s => '\'' :: (s ++ ['\''])
  | .arr xs => '[' :: (pyReprList xs ++ [']'])
  | .obj kvs => '\x7b' :: (pyReprEntries kvs ++ ['\x7d'])

def pyReprList : List JVal → List Char
  | [] => []
  | [x] => pyRepr x
  | x :: y :: xs => pyRepr x ++ ',' :: ' ' :: pyReprList (y :: xs)

def pyReprEntries : PyDict → List Char
  | [] => []
  | [(k, v)] => '\'' :: (k ++ '\'' :: ':' :: ' ' :: pyRepr v)
  | (k, v) :: e :: rest =>
    '\'' :: (k ++ '\'' :: ':' :: ' ' :: pyRepr v) ++ ',' :: ' ' :: pyReprEntries (e :: rest)
end

/-- Python `str(x)` on a JSON-like value. -/
def pyStr : JVal → List Char
  | .null => pych "None"
  | .bool true => pych "True"
  | .bool false => pych "False"
  | .int n => intDec n
  | .str s => s
  | .arr xs => pyRepr (.arr xs)
  | .obj kvs => pyRepr (.obj kvs)

/-- `_norm_scalar` from the source. -/
def norm_scalar : JVal → List Char
  | .null => []
  | .bool true => pych "true"
  | .bool false => pych "false"
  | x => toLowerStr (pyStrip (pyStr x))

/-- Unescape one short escape character. -/
def unescCh (e : Char) : Option Char :=
  if e = '"' then some '"'
  else if e = '\\' then some '\\'
  else if e = 'n' then some '\n'
  else if e = 't' then some '\t'
  else if e = 'r' then some '\r'
  else if e = 'b' then some '\x08'
  else if e = 'f' then some '\x0c'
  else none

/-- Parse a JSON string body up to (and consuming) the closing quote. -/
def parseStrBody : List Char → Option (List Char × List Char)
  | [] => none
  | '"' :: r => some ([], r)
  | '\\' :: [] => none
  | '\\' :: e :: r =>
    match unescCh e with
    | some d => (parseStrBody r).map (fun p => (d :: p.1, p.2))
    | none => none
  | c :: r => (parseStrBody r).map (fun p => (c :: p.1, p.2))

/-- Fold decimal digits onto an accumulator. -/
def decDigits (acc : Nat) : List Char → Nat
  | [] => acc
  | c :: cs => decDigits (10 * acc + digitVal c) cs

def parseNat (s : List Char) : Option (Nat × List Char) :=
  let ds := s.takeWhile isDigitCh
  if ds.isEmpty then none else some (decDigits 0 ds, s.dropWhile isDigitCh)

/-- Keyword literal `null` (with its trailing text). -/
def decNull : List Char → Option (JVal × List Char)
  | 'n' :: 'u' :: 'l' :: 'l' :: r => some (.null, r)
  | _ => none

/-- Keyword literal `true`. -/
def decTrue : List Char → Option (JVal × List Char)
  | 't' :: 'r' :: 'u' :: 'e' :: r => some (.bool true, r)
  | _ => none

/-- Keyword literal `false`. -/
def decFalse : List Char → Option (JVal × List Char)
  | 'f' :: 'a' :: 'l' :: 's' :: 'e' :: r => some (.bool false, r)
  | _ => none

/-- List continuation after one element was decoded: close on `]`,
recurse past a `", "` separator. -/
def decLStep (rec : List Char → Option (List JVal × List Char)) :
    Option (JVal × List Char) → Option (List JVal × List Char)
  | some (x, ']' :: r2) => some ([x], r2)
  | some (x, ',' :: ' ' :: r2) => (rec r2).map (fun p => (x :: p.1, p.2))
  | _ => none

/-- Entry continuation after the value was decoded: close on the brace,
recurse past a `", "` separator. -/
def decEStep2 (rec : List Char → Option (PyDict × List Char)) (k : List Char) :
    Option (JVal × List Char) → Option (PyDict × List Char)
  | some (v, '\x7d' :: r4) => some ([(k, v)], r4)
  | some (v, ',' :: ' ' :: r4) => (rec r4).map (fun p => ((k, v) :: p.1, p.2))
  | _ => none

/-- Entry continuation after the key string was decoded: expect `": "`,
then a value. -/
def decEStep (dv : List Char → Option (JVal × List Char))
    (rec : List Char → Option (PyDict × List Char)) :
    Option (List Char × List Char) → Option (PyDict × List Char)
  | some (k, ':' :: ' ' :: r2) => decEStep2 rec k (dv r2)
  | _ => none

mutual
/-- Fueled recursive-descent parser for `serialize`'s grammar fragment
(the model of `json.loads` on canonical text). -/
def decodeV : Nat → List Char → Option (JVal × List Char)
  | 0, _ => none
  | _ + 1, [] => none
  | fuel + 1, c :: r =>
    if c = 'n' then decNull (c :: r)
    else if c = 't' then decTrue (c :: r)
    else if c = 'f' then decFalse (c :: r)
    else if c = '"' then (parseStrBody r).map (fun p => (.str p.1, p.2))
    else if c = '[' then (decodeL fuel r).map (fun p => (.arr p.1, p.2))
    else if c = '\x7b' then (decodeE fuel r).map (fun p => (.obj p.1, p.2))
    else if c = '-' then (parseNat r).map (fun p => (.int (-(p.1 : Int)), p.2))
    else if isDigitCh c then (parseNat (c :: r)).map (fun p => (.int (p.1 : Int), p.2))
    else none

def decodeL : Nat → List Char → Option (List JVal × List Char)
  | 0, _ => none
  | _ + 1, [] => none
  | fuel + 1, c :: r =>
    if c = ']' then some ([], r)
    else decLStep (decodeL fuel) (decodeV fuel (c :: r))

def decodeE : Nat → List Char → Option (PyDict × List Char)
  | 0, _ => none
  | _ + 1, [] => none
  | fuel + 1, c :: r =>
    if c = '\x7d' then some ([], r)
    else if c = '"' then decEStep (decodeV fuel) (decodeE fuel) (parseStrBody r)
    else none
end

/-- Model of `json.loads` (canonical grammar fragment, full consumption). -/
def jsonLoads (s : List Char) : Option JVal :=
  match decodeV (2 * s.length + 2) s with
  | some (v, []) => some v
  | _ => none

/- -----------------------
   Schema/type helpers
   ----------------------- -/

/-- `_schema_properties`: `schema.get("properties")` when that is a dict. -/
def schema_properties (schema : PyDict) : PyDict :=
  match dGet schema (pych "properties") with
  | some (.obj props) => props
  | _ => []

/-- `_schema_items_schema`: `prop_schema.get("items")` when that is a dict. -/
def schema_items_schema (ps : PyDict) : PyDict :=
  match dGet ps (pych "items") with
  | some (.obj items) => items
  | _ => []

/-- `_schema_required_keys`: `schema.get("required")` when that is a list. -/
def schema_required_keys (s : PyDict) : List JVal :=
  match dGet s (pych "required") with
  | some (.arr req) => req
  | _ => []

def jvalIsStrLit (t : JVal) (s : List Char) : Bool :=
  match t with
  | .str u => u = s
  | _ => false

/-- `_schema_type` applied to a value already known to be a dict
(every call site except the one reached through `_is_simple_type`
guarantees this).  The result is the raw Python value of the dispatch
tag, which need not be a string. -/
def schema_typeD (ps : PyDict) : JVal :=
  match dGet ps (pych "type") with
  | some (.arr ts) =>
    ((ts.filter (fun x => !jvalIsStrLit x (pych "null"))).headD (.str (pych "string")))
  | some t => if pyTruthy t then t else .str (pych "string")
  | none => .str (pych "string")

/-- `_schema_type` on an arbitrary value: `(prop_schema or {}).get("type")`
raises `AttributeError` when `prop_schema` is truthy but not a dict.
`none` models the raised exception. -/
def schema_typeE (v : JVal) : Option JVal :=
  match v with
  | .obj kvs => some (schema_typeD kvs)
  | v => if pyTruthy v then none else some (schema_typeD [])

def simpleTypeNames : List (List Char) :=
  [pych "string", pych "integer", pych "number", pych "boolean"]

/-- `_is_simple_type` on a dict field-schema. -/
def is_simple_typeD (ps : PyDict) : Bool :=
  match schema_typeD ps with
  | .str t => simpleTypeNames.any (fun u => u = t)
  | _ => false

/-- `_is_simple_type` on an arbitrary value (may raise). -/
def is_simple_typeE (v : JVal) : Option Bool :=
  match schema_typeE v with
  | some (.str t) => some (simpleTypeNames.any (fun u => u = t))
  | some _ => some false
  | none => none

/- -----------------------
   Schema-driven object identity
   ----------------------- -/

def idVocab : List (List Char) :=
  [pych "id", pych "identifier", pych "identificatie", pych "uuid", pych "guid",
   pych "uri", pych "iri", pych "url", pych "ref", pych "reference",
   pych "nummer", pych "number", pych "code", pych "key"]

def splitUnderscore : List Char → List (List Char)
  | [] => [[]]
  | c :: cs =>
    let rest := splitUnderscore cs
    if c = '_' then [] :: rest
    else
      match rest with
      | seg :: segs => (c :: seg) :: segs
      | [] => [[c]]

/-- `_ID_HINT_RE.search(k)`: the identifier vocabulary, delimited by the
start/end of the key or by underscores, case-insensitively.  Since the
vocabulary words contain no underscore, a match is exactly an
underscore-separated segment equal to a vocabulary word. -/
def id_hint (k : List Char) : Bool :=
  (splitUnderscore (toLowerStr k)).any (fun seg => idVocab.any (fun w => w = seg))

/-- `_derive_identity_keys`; `none` models the `AttributeError` raised by
`_is_simple_type(props.get(k, {}))` on a truthy non-dict property schema. -/
def derive_identity_keysE (items_schema : PyDict) : Option (List (List Char)) :=
  let props := schema_properties items_schema
  if props.isEmpty then some []
  else
    let idLike0 := (props.map Prod.fst).filter id_hint
    match idLike0.foldr
        (fun k acc => acc.bind (fun l =>
          (is_simple_typeE ((dGet props k).getD (.obj []))).map
            (fun b => if b then k :: l else l)))
        (some []) with
    | none => none
    | some idLike =>
      if !idLike.isEmpty then some (idLike.take 2)
      else
        let req := schema_required_keys items_schema
        match req.foldr
            (fun kv acc => acc.bind (fun l =>
              match kv with
              | .str k =>
                if dMem props k then
                  (is_simple_typeE ((dGet props k).getD (.obj []))).map
                    (fun b => if b then k :: l else l)
                else some l
              | _ => some l))
            (some []) with
        | none => none
        | some reqSimple =>
          if !reqSimple.isEmpty then some (reqSimple.take 4)
          else
            some ((props.filterMap (fun p =>
              match p.2 with
              | .obj so => if is_simple_typeD so then some p.1 else none
              | _ => none)).take 4)

def joinSep (sep : List Char) : List (List Char) → List Char
  | [] => []
  | [p] => p
  | p :: q :: rest => p ++ sep ++ joinSep sep (q :: rest)

/-- The `"key=normalized_value"` parts contributed by the chosen keys
(present with a non-empty value). -/
def sigParts (o : PyDict) (keys : List (List Char)) : List (List Char) :=
  keys.filterMap (fun k =>
    match dGet o k with
    | some v => if isEmptyVal v then none else some (k ++ '=' :: norm_scalar v)
    | none => none)

/-- `_object_signature`.  `json.dumps` is total on `JVal`, so the
`"str:"` fallback of the source is unreachable in the model. -/
def object_signature (o : PyDict) (keys : List (List Char)) : List Char :=
  let parts := sigParts o keys
  if !parts.isEmpty then pych "sig:" ++ joinSep ['|'] parts
  else pych "json:" ++ dumps (.obj o)

/- -----------------------
   Merge primitives
   ----------------------- -/

/-- The trimmed non-empty string candidates of `_merge_strings`:
`[v.strip() for v in values if isinstance(v, str) and v.strip()]`. -/
def trimmedStrs (values : List JVal) : List (List Char) :=
  values.filterMap (fun v =>
    match v with
    | .str s => if (pyStrip s).isEmpty then none else some (pyStrip s)
    | _ => none)

/-- Keep the first element for each key `f x`, later duplicates dropped
(the `seen`-set loop of the source, with the set as the list of keys
added so far). -/
def dedupFirstBy {α : Type} (f : α → List Char) (seen : List (List Char)) :
    List α → List α
  | [] => []
  | x :: xs =>
    if f x ∈ seen then dedupFirstBy f seen xs
    else x :: dedupFirstBy f (seen ++ [f x]) xs

/-- `_merge_strings`. -/
def merge_strings (values : List JVal) (mode : List Char) (max_len : Nat) :
    Option (List Char) :=
  let ss := trimmedStrs values
  if ss.isEmpty then none
  else if mode = pych "concat" then
    some ((joinSep (pych "\n\n") (dedupFirstBy (fun s => s.take 120) [] ss)).take max_len)
  else ss.head?

/-- Models `float(v.strip())` restricted to integer-valued literals
(optional sign, decimal digits); fractional floats are outside the model. -/
def parseIntStr (s : List Char) : Option Int :=
  let t := pyStrip s
  match t with
  | '-' :: ds => if !ds.isEmpty && ds.all isDigitCh then some (-(decDigits 0 ds : Int)) else none
  | '+' :: ds => if !ds.isEmpty && ds.all isDigitCh then some (decDigits 0 ds : Int) else none
  | ds => if !ds.isEmpty && ds.all isDigitCh then some (decDigits 0 ds : Int) else none

/-- `_merge_numbers` (note Python's `isinstance(True, int)`: booleans
count as numbers). -/
def merge_numbers (values : List JVal) (mode : List Char) : Option Int :=
  let nums := values.filterMap (fun v =>
    match v with
    | .int n => some n
    | .bool b => some (if b then 1 else 0)
    | .str s => parseIntStr s
    | _ => none)
  match nums with
  | [] => none
  | n :: _ =>
    if mode = pych "max" then some (nums.foldl max n)
    else if mode = pych "min" then some (nums.foldl min n)
    else some n

mutual
/-- Computable structural size of a JSON-like value (the derived
`SizeOf` instance has no executable code, so fuel arguments use this). -/
def jsize : JVal → Nat
  | .null => 1
  | .bool _ => 1
  | .int _ => 1
  | .str _ => 1
  | .arr xs => 1 + jsizeL xs
  | .obj kvs => 1 + jsizeE kvs

def jsizeL : List JVal → Nat
  | [] => 1
  | x :: xs => 1 + jsize x + jsizeL xs

def jsizeE : PyDict → Nat
  | [] => 1
  | (_, v) :: rest => 2 + jsize v + jsizeE rest
end

/-- Both merge operands are dicts (the `isinstance(out[k], dict) and
isinstance(v, dict)` test of `_deep_merge_objects`). -/
def bothObjs : JVal → JVal → Option (PyDict × PyDict)
  | .obj wo, .obj vo => some (wo, vo)
  | _, _ => none

/-- One iteration of the `_deep_merge_objects` loop body for key `k`
and right-operand value `v`, dispatching on `dGet out k`; `mrg` is the
recursive merge used on a nested dict pair. -/
def dmStepVal (mrg : PyDict → PyDict → PyDict) (out : PyDict) (k : List Char) (v : JVal) :
    Option JVal → PyDict
  | none => dSet out k v
  | some w =>
    if isEmptyVal w then dSet out k v
    else
      match bothObjs w v with
      | some p => dSet out k (.obj (mrg p.1 p.2))
      | none => out

def dmStepWith (mrg : PyDict → PyDict → PyDict) (out : PyDict) (k : List Char) (v : JVal) :
    PyDict :=
  dmStepVal mrg out k v (dGet out k)

/-- Fuel-driven implementation of `_deep_merge_objects`.  The fuel is a
termination device only: `dmFuel_irrel` below shows that any fuel of at
least `sizeOf b` computes the same function, and `deep_merge_objects`
instantiates it with `sizeOf b`. -/
def dmFuel : Nat → PyDict → PyDict → PyDict
  | 0, out, _ => out
  | _ + 1, out, [] => out
  | fuel + 1, out, (k, v) :: rest =>
    dmFuel fuel (dmStepWith (dmFuel fuel) out k v) rest

/-- `_deep_merge_objects`: existing non-empty values in the accumulator
win, gaps are filled from the right operand, dicts merge recursively. -/
def deep_merge_objects (a b : PyDict) : PyDict := dmFuel (jsizeE b) a b

/-- `_merge_objects`. -/
def merge_objects (values : List JVal) : PyDict :=
  values.foldl (fun out v =>
    match v with
    | .obj d => deep_merge_objects out d
    | _ => out) []

/- -----------------------
   Array merge
   ----------------------- -/

/-- `_coerce_to_list`. -/
def coerce_to_list (v : JVal) : List JVal :=
  match v with
  | .null => []
  | .arr l => l
  | .obj o => [.obj o]
  | .str s0 =>
    let s := pyStrip s0
    if s.isEmpty then []
    else if s.headD ' ' = '[' || s.headD ' ' = '\x7b' then
      match jsonLoads s with
      | some (.arr l) => l
      | some (.obj o) => [.obj o]
      | _ => [.str s]
    else [.str s]
  | _ => []

/-- Inner loop of `_merge_array_of_objects` over the items of one chunk:
the state is the signature-keyed accumulator in first-seen order. -/
def objItemsLoop (keys : List (List Char)) :
    List (List Char × PyDict) → List JVal → List (List Char × PyDict)
  | acc, [] => acc
  | acc, item :: rest =>
    match item with
    | .obj o =>
      let sig := object_signature o keys
      match dGet acc sig with
      | none => objItemsLoop keys (acc ++ [(sig, o)]) rest
      | some ex => objItemsLoop keys (dSet acc sig (deep_merge_objects ex o)) rest
    | _ => objItemsLoop keys acc rest

/-- `_merge_array_of_objects` given the derived keys. -/
def merge_array_of_objects_keys (values : List JVal) (keys : List (List Char)) :
    List JVal :=
  (values.foldl (fun acc v => objItemsLoop keys acc (coerce_to_list v)) []).map
    (fun p => .obj p.2)

/-- `_merge_array_of_objects` (identity-key derivation may raise). -/
def merge_array_of_objectsE (values : List JVal) (items_schema : PyDict) :
    Option (List JVal) :=
  (derive_identity_keysE items_schema).map (merge_array_of_objects_keys values)

/-- The dedup key of `_merge_array_of_scalars`: canonical JSON for
compound items, plain string form otherwise. -/
def canonKey (item : JVal) : List Char :=
  match item with
  | .arr _ => dumps item
  | .obj _ => dumps item
  | _ => pyStr item

/-- Inner loop of `_merge_array_of_scalars` (state: `seen` keys, output). -/
def scalarLoop (seen : List (List Char)) (out : List JVal) :
    List JVal → List (List Char) × List JVal
  | [] => (seen, out)
  | item :: rest =>
    if isNullB item then scalarLoop seen out rest
    else if canonKey item ∈ seen then scalarLoop seen out rest
    else scalarLoop (seen ++ [canonKey item]) (out ++ [item]) rest

/-- `_merge_array_of_scalars`. -/
def merge_array_of_scalars (values : List JVal) : List JVal :=
  (values.foldl (fun st v => scalarLoop st.1 st.2 (coerce_to_list v)) ([], [])).2

/-- `_merge_arrays`. -/
def merge_arraysE (values : List JVal) (items_schema : PyDict) :
    Option (List JVal) :=
  if jvalIsStrLit (schema_typeD items_schema) (pych "object") then
    merge_array_of_objectsE values items_schema
  else some (merge_array_of_scalars values)

/- -----------------------
   Main aggregator
   ----------------------- -/

def concatFields : List (List Char) :=
  [pych "description", pych "samenvatting", pych "abstract", pych "notes"]

/-- One iteration of the per-property loop of `aggregate_chunk_dicts`:
compute the merged value for property `key` with field-schema value
`psv` over the chunk values. -/
def computeFieldE (chunk_dicts : List PyDict) (key : List Char) (psv : JVal) :
    Option JVal :=
  let ps : PyDict := match psv with | .obj d => d | _ => []
  let values := chunk_dicts.map (fun d => (dGet d key).getD .null)
  let t := schema_typeD ps
  if jvalIsStrLit t (pych "string") then
    let mode := if key ∈ concatFields then pych "concat" else pych "first"
    some ((merge_strings values mode 1600).elim .null .str)
  else if jvalIsStrLit t (pych "array") then
    (merge_arraysE values (schema_items_schema ps)).map .arr
  else if jvalIsStrLit t (pych "object") then
    some (.obj (merge_objects values))
  else if jvalIsStrLit t (pych "integer") || jvalIsStrLit t (pych "number") then
    some ((merge_numbers values (pych "first")).elim .null .int)
  else if jvalIsStrLit t (pych "boolean") then
    some (match first_non_empty values with
      | .str s =>
        let u := toLowerStr (pyStrip s)
        if u = pych "true" || u = pych "ja" || u = pych "yes" || u = pych "1" then .bool true
        else if u = pych "false" || u = pych "nee" || u = pych "no" || u = pych "0" then .bool false
        else .null
      | v => v)
  else some (first_non_empty values)

/-- The per-property loop of `aggregate_chunk_dicts`, building `out`. -/
def computeFieldsE (chunk_dicts : List PyDict) :
    List (List Char × JVal) → PyDict → Option PyDict
  | [], out => some out
  | (key, psv) :: rest, out =>
    match computeFieldE chunk_dicts key psv with
    | none => none
    | some v => computeFieldsE chunk_dicts rest (dSet out key v)

/-- The `technical` injection step of `aggregate_chunk_dicts`:
inject iff declared, supplied, and the computed value is not a dict. -/
def injectTechnical (props : PyDict) (technical : Option PyDict) (out : PyDict) : PyDict :=
  match technical with
  | some t =>
    if dMem props (pych "technical")
        && !isObjB ((dGet out (pych "technical")).getD .null) then
      dSet out (pych "technical") (.obj t)
    else out
  | none => out

/-- The `filetype` injection step of `aggregate_chunk_dicts`:
inject iff declared, supplied, and the computed value is falsy. -/
def injectFiletype (props : PyDict) (filetype_guess : Option (List Char)) (out : PyDict) : PyDict :=
  match filetype_guess with
  | some f =>
    if dMem props (pych "filetype")
        && !pyTruthy ((dGet out (pych "filetype")).getD .null) then
      dSet out (pych "filetype") (.str f)
    else out
  | none => out

/-- `aggregate_chunk_dicts`.  `technical` is the optional metadata dict,
`filetype_guess` the optional guess; `none` as the RESULT models an
uncaught exception. -/
def aggregate_chunk_dicts (chunk_dicts : List PyDict) (schema : PyDict)
    (technical : Option PyDict) (filetype_guess : Option (List Char)) :
    Option PyDict :=
  if chunk_dicts.isEmpty then
    let props := schema_properties schema
    let base : PyDict := []
    let base := match technical with
      | some t => if dMem props (pych "technical") then dSet base (pych "technical") (.obj t) else base
      | none => base
    let base := match filetype_guess with
      | some f => if dMem props (pych "filetype") then dSet base (pych "filetype") (.str f) else base
      | none => base
    some base
  else
    let props := schema_properties schema
    match computeFieldsE chunk_dicts props [] with
    | none => none
    | some out =>
      some ((injectFiletype props filetype_guess
        (injectTechnical props technical out)).filter (fun kv => dMem props kv.1))


/- -----------------------
   Association-list lemmas
   ----------------------- -/

theorem dGet_dSet_self {α : Type} (d : List (List Char × α)) (k : List Char) (v : α) :
    dGet (dSet d k v) k = some v := by
  induction d with
  | nil => simp [dSet, dGet]
  | cons e rest ih =>
    obtain ⟨k', v'⟩ := e
    by_cases h : k = k'
    · simp [dSet, dGet, h]
    · simp [dSet, dGet, h, ih]

theorem dGet_dSet_ne {α : Type} (d : List (List Char × α)) (k k' : List Char) (v : α)
    (h : k ≠ k') : dGet (dSet d k' v) k = dGet d k := by
  induction d with
  | nil => simp [dSet, dGet, h]
  | cons e rest ih =>
    obtain ⟨k2, v2⟩ := e
    by_cases h2 : k' = k2
    · subst h2
      simp [dSet, dGet, h]
    · by_cases h3 : k = k2 <;> simp [dSet, dGet, h2, h3, ih]

theorem keys_dSet_mem {α : Type} (d : List (List Char × α)) (k : List Char) (v : α)
    (h : k ∈ d.map Prod.fst) : (dSet d k v).map Prod.fst = d.map Prod.fst := by
  induction d with
  | nil => simp at h
  | cons e rest ih =>
    obtain ⟨k2, v2⟩ := e
    by_cases h2 : k = k2
    · simp [dSet, h2]
    · simp only [List.map_cons, List.mem_cons] at h
      rcases h with h | h
      · exact absurd h h2
      · simp [dSet, h2, ih h]

theorem keys_dSet_absent {α : Type} (d : List (List Char × α)) (k : List Char) (v : α)
    (h : k ∉ d.map Prod.fst) : (dSet d k v).map Prod.fst = d.map Prod.fst ++ [k] := by
  induction d with
  | nil => simp [dSet]
  | cons e rest ih =>
    obtain ⟨k2, v2⟩ := e
    simp only [List.map_cons, List.mem_cons] at h
    push_neg at h
    simp [dSet, h.1, ih h.2]

theorem dGet_isSome_iff {α : Type} (d : List (List Char × α)) (k : List Char) :
    (dGet d k).isSome = true ↔ k ∈ d.map Prod.fst := by
  induction d with
  | nil => simp [dGet]
  | cons e rest ih =>
    obtain ⟨k2, v2⟩ := e
    by_cases h : k = k2
    · subst h
      simp [dGet]
    · simp [dGet, h, ih]

theorem dGet_eq_none_of_not_mem {α : Type} (d : List (List Char × α)) (k : List Char)
    (h : k ∉ d.map Prod.fst) : dGet d k = none := by
  rcases h2 : dGet d k with _ | v
  · rfl
  · exact absurd ((dGet_isSome_iff d k).mp (by simp [h2])) h

theorem dGet_filter_key (d : PyDict) (q : List Char → Bool) (k : List Char) :
    dGet (d.filter (fun kv => q kv.1)) k = if q k then dGet d k else none := by
  induction d with
  | nil => simp [dGet]
  | cons e rest ih =>
    obtain ⟨k2, v2⟩ := e
    by_cases h : k = k2
    · subst h
      by_cases hq : q k
      · simp [List.filter, dGet, hq]
      · simp [List.filter, dGet, hq, ih]
    · by_cases hq2 : q k2
      · simp [List.filter, dGet, h, hq2, ih]
      · simp [List.filter, dGet, h, hq2, ih]

/- -----------------------
   Claim C5: empty input
   ----------------------- -/

/-- C5: with an empty partial-record list the output contains exactly the
key `"technical"` (when declared and metadata supplied) and `"filetype"`
(when declared and a guess supplied) and nothing else; in particular with
both declared, `technical={"sha256":"abc"}` and `filetype_guess="pdf"`
the result is exactly that two-field record. -/
theorem c5_empty_input (schema : PyDict) (t : Option PyDict) (f : Option (List Char)) :
    (aggregate_chunk_dicts [] schema t f = some (
      (match t, dGet (schema_properties schema) (pych "technical") with
       | some td, some _ => [(pych "technical", JVal.obj td)]
       | _, _ => []) ++
      (match f, dGet (schema_properties schema) (pych "filetype") with
       | some fs, some _ => [(pych "filetype", JVal.str fs)]
       | _, _ => []))) ∧
    aggregate_chunk_dicts []
      [(pych "properties", .obj [(pych "technical", .obj []), (pych "filetype", .obj [])])]
      (some [(pych "sha256", .str (pych "abc"))]) (some (pych "pdf"))
      = some [(pych "technical", .obj [(pych "sha256", .str (pych "abc"))]),
              (pych "filetype", .str (pych "pdf"))] := by
  constructor
  · cases t with
    | none =>
      cases f with
      | none =>
        simp [aggregate_chunk_dicts]
      | some fs =>
        rcases h : dGet (schema_properties schema) (pych "filetype") with _ | w <;>
          simp [aggregate_chunk_dicts, dMem, h, dSet]
    | some td =>
      cases f with
      | none =>
        rcases h : dGet (schema_properties schema) (pych "technical") with _ | w <;>
          simp [aggregate_chunk_dicts, dMem, h, dSet]
      | some fs =>
        rcases h : dGet (schema_properties schema) (pych "technical") with _ | w <;>
          rcases h2 : dGet (schema_properties schema) (pych "filetype") with _ | w2 <;>
          simp [aggregate_chunk_dicts, dMem, h, h2, dSet,
            show pych "filetype" ≠ pych "technical" from by decide]
  · rfl

/- -----------------------
   Claim C6: coercion to list
   ----------------------- -/

/-- C6 counterexample: a number is a non-list, non-null scalar, yet
`_coerce_to_list` sends it to the empty list, not to a singleton;
likewise a whitespace-only string. -/
theorem c6_counterexample :
    coerce_to_list (.int 5) = [] ∧
    coerce_to_list (.int 5) ≠ [JVal.int 5] ∧
    coerce_to_list (.str (pych "   ")) = [] := by
  refine ⟨rfl, ?_, rfl⟩
  simp [coerce_to_list]

/-- C6 (amended): null coerces to the empty list; a list is kept; a dict
becomes a singleton; a string is trimmed, the empty result giving the
empty list, a `[`/`{`-leading result being JSON-parsed and wrapped as
list/singleton (falling back to the singleton of the trimmed string),
any other result giving the singleton of the trimmed string; every
remaining scalar (number, boolean) coerces to the empty list. -/
theorem c6_amended :
    (coerce_to_list .null = []) ∧
    (∀ l, coerce_to_list (.arr l) = l) ∧
    (∀ o, coerce_to_list (.obj o) = [.obj o]) ∧
    (∀ n, coerce_to_list (.int n) = []) ∧
    (∀ b, coerce_to_list (.bool b) = []) ∧
    (∀ s, coerce_to_list (.str s) =
      (if (pyStrip s).isEmpty then []
       else if (pyStrip s).headD ' ' = '[' || (pyStrip s).headD ' ' = '\x7b' then
         match jsonLoads (pyStrip s) with
         | some (.arr l) => l
         | some (.obj o) => [.obj o]
         | _ => [.str (pyStrip s)]
       else [.str (pyStrip s)])) ∧
    (coerce_to_list (.str (pych "[1, 2]")) = [.int 1, .int 2]) ∧
    (coerce_to_list (.str (pych "  x  ")) = [.str (pych "x")]) := by
  exact ⟨rfl, fun l => rfl, fun o => rfl, fun n => rfl, fun b => rfl,
    fun s => rfl, rfl, rfl⟩

/- -----------------------
   Claim C4: totality / raising
   ----------------------- -/

def c4BadSchema : PyDict :=
  [(pych "properties", .obj [(pych "xs", .obj
    [(pych "type", .str (pych "array")),
     (pych "items", .obj
       [(pych "type", .str (pych "object")),
        (pych "properties", .obj [(pych "id", .int 42)])])])])]

def c4GoodSchema : PyDict :=
  [(pych "properties", .obj [(pych "xs", .obj
    [(pych "type", .str (pych "array")),
     (pych "items", .obj
       [(pych "type", .str (pych "object")),
        (pych "properties", .obj [(pych "id", .obj [(pych "type", .str (pych "string"))])])])])])]

/-- C4: the code can raise.  With a JSON-like schema whose array items
declare the malformed property schema `{"id": 42}`, `_derive_identity_keys`
evaluates `_is_simple_type(42)`, whose `(42 or {}).get("type")` raises
`AttributeError`; the aggregator propagates it (modelled by `none`) for
any non-empty chunk list, while the same schema with a well-formed `"id"`
property schema returns a record, and the empty chunk list bypasses the
merge and also returns. -/
theorem c4_raises :
    aggregate_chunk_dicts [[]] c4BadSchema none none = none ∧
    aggregate_chunk_dicts [] c4BadSchema none none = some [] ∧
    aggregate_chunk_dicts [[]] c4GoodSchema none none = some [(pych "xs", .arr [])] :=
  ⟨rfl, rfl, rfl⟩

/- -----------------------
   Claim C1: output key set
   ----------------------- -/

def c1Schema : PyDict :=
  [(pych "properties", .obj [(pych "title", .obj [(pych "type", .str (pych "string"))])])]

/-- C1 counterexample: for the empty partial-record list the merged
record's key set is empty even though the schema declares `"title"`. -/
theorem c1_counterexample :
    aggregate_chunk_dicts [] c1Schema none none = some [] ∧
    (schema_properties c1Schema).map Prod.fst = [pych "title"] ∧
    ([] : List (List Char)) ≠ [pych "title"] := by
  refine ⟨rfl, rfl, ?_⟩
  decide

theorem computeFieldsE_keys (cs : List PyDict) :
    ∀ (props : PyDict) (out0 r : PyDict),
      ((out0.map Prod.fst) ++ props.map Prod.fst).Nodup →
      computeFieldsE cs props out0 = some r →
      r.map Prod.fst = out0.map Prod.fst ++ props.map Prod.fst := by
  intro props
  induction props with
  | nil =>
    intro out0 r _ h
    simp [computeFieldsE] at h
    simp [← h]
  | cons e rest ih =>
    intro out0 r hnd h
    obtain ⟨key, psv⟩ := e
    simp only [computeFieldsE] at h
    rcases hc : computeFieldE cs key psv with _ | v
    · rw [hc] at h
      exact absurd h (by simp)
    · rw [hc] at h
      have hmem : key ∉ out0.map Prod.fst := by
        rw [List.nodup_append] at hnd
        intro hk
        exact hnd.2.2 hk (by simp)
      have hkeys := keys_dSet_absent out0 key v hmem
      have hnd' : (((dSet out0 key v).map Prod.fst) ++ rest.map Prod.fst).Nodup := by
        rw [hkeys, List.append_assoc]
        simpa using hnd
      have := ih (dSet out0 key v) r hnd' h
      rw [this, hkeys, List.append_assoc]
      simp


theorem injectTechnical_keys (props : PyDict) (t : Option PyDict) (o : PyDict)
    (ho : o.map Prod.fst = props.map Prod.fst) :
    (injectTechnical props t o).map Prod.fst = props.map Prod.fst := by
  cases t with
  | none => exact ho
  | some td =>
    rw [injectTechnical]
    by_cases hc : (dMem props (pych "technical")
        && !isObjB ((dGet o (pych "technical")).getD .null)) = true
    · rw [if_pos hc]
      have hmem : pych "technical" ∈ o.map Prod.fst := by
        rw [ho]
        simp only [Bool.and_eq_true] at hc
        exact (dGet_isSome_iff props _).mp hc.1
      rw [keys_dSet_mem o _ _ hmem]
      exact ho
    · rw [if_neg hc]
      exact ho

theorem injectFiletype_keys (props : PyDict) (f : Option (List Char)) (o : PyDict)
    (ho : o.map Prod.fst = props.map Prod.fst) :
    (injectFiletype props f o).map Prod.fst = props.map Prod.fst := by
  cases f with
  | none => exact ho
  | some fs =>
    rw [injectFiletype]
    by_cases hc : (dMem props (pych "filetype")
        && !pyTruthy ((dGet o (pych "filetype")).getD .null)) = true
    · rw [if_pos hc]
      have hmem : pych "filetype" ∈ o.map Prod.fst := by
        rw [ho]
        simp only [Bool.and_eq_true] at hc
        exact (dGet_isSome_iff props _).mp hc.1
      rw [keys_dSet_mem o _ _ hmem]
      exact ho
    · rw [if_neg hc]
      exact ho

theorem filter_props_self (props o : PyDict)
    (ho : ∀ k, k ∈ o.map Prod.fst → k ∈ props.map Prod.fst) :
    o.filter (fun kv => dMem props kv.1) = o := by
  rw [List.filter_eq_self]
  intro kv hkv
  have h1 : kv.1 ∈ o.map Prod.fst := List.mem_map_of_mem Prod.fst hkv
  exact (dGet_isSome_iff props kv.1).mpr (ho _ h1)

/-- C1 (amended): for every schema (a Python dict, hence duplicate-free
property keys) and every NON-empty partial-record list, a successful
aggregation returns a record whose key list is exactly the schema's
declared property-name list (the empty list instead yields only the
injected `technical`/`filetype` keys, per C5). -/
theorem c1_amended (cs : List PyDict) (schema : PyDict) (t : Option PyDict)
    (f : Option (List Char)) (r : PyDict)
    (hne : cs ≠ [])
    (hnodup : ((schema_properties schema).map Prod.fst).Nodup)
    (h : aggregate_chunk_dicts cs schema t f = some r) :
    r.map Prod.fst = (schema_properties schema).map Prod.fst := by
  have hcs : cs.isEmpty = false := by
    cases cs
    · exact absurd rfl hne
    · rfl
  rw [aggregate_chunk_dicts, hcs] at h
  simp only [Bool.false_eq_true, if_false] at h
  rcases hcf : computeFieldsE cs (schema_properties schema) [] with _ | out
  · rw [hcf] at h
    exact absurd h (by simp)
  · rw [hcf] at h
    have h' : some ((injectFiletype (schema_properties schema) f
        (injectTechnical (schema_properties schema) t out)).filter
          (fun kv => dMem (schema_properties schema) kv.1)) = some r := h
    have hout : out.map Prod.fst = (schema_properties schema).map Prod.fst := by
      have := computeFieldsE_keys cs (schema_properties schema) [] out (by simpa using hnodup) hcf
      simpa using this
    have h1 := injectTechnical_keys (schema_properties schema) t out hout
    have h2 := injectFiletype_keys (schema_properties schema) f _ h1
    have h3 := filter_props_self (schema_properties schema)
      (injectFiletype (schema_properties schema) f
        (injectTechnical (schema_properties schema) t out))
      (by intro k hk; rw [h2] at hk; exact hk)
    rw [h3] at h'
    have hr := Option.some.inj h'
    rw [← hr]
    exact h2

/-- C1 amended, witnessed at a concrete non-empty input. -/
theorem c1_amended_witness :
    ([(pych "title", JVal.null)] : PyDict).map Prod.fst
      = (schema_properties c1Schema).map Prod.fst :=
  c1_amended [[]] c1Schema none none [(pych "title", .null)]
    (by simp) (by decide) rfl

/- -----------------------
   Claim C2: deep merge
   ----------------------- -/

theorem jsizeE_pos (b : PyDict) : 1 ≤ jsizeE b := by
  cases b with
  | nil => exact le_refl 1
  | cons e rest =>
    obtain ⟨k, v⟩ := e
    rw [jsizeE]
    omega

theorem bothObjs_some (w v : JVal) (p : PyDict × PyDict) (h : bothObjs w v = some p) :
    w = .obj p.1 ∧ v = .obj p.2 := by
  cases w <;> cases v <;> simp [bothObjs] at h
  simp [← h]

theorem dmStep_none (mrg : PyDict → PyDict → PyDict) (out : PyDict) (k : List Char)
    (v : JVal) (h : dGet out k = none) : dmStepWith mrg out k v = dSet out k v := by
  unfold dmStepWith
  rw [h]
  rfl

theorem dmStep_someEmpty (mrg : PyDict → PyDict → PyDict) (out : PyDict) (k : List Char)
    (v w : JVal) (h : dGet out k = some w) (he : isEmptyVal w = true) :
    dmStepWith mrg out k v = dSet out k v := by
  unfold dmStepWith
  rw [h, dmStepVal, if_pos he]

theorem dmStep_someObjs (mrg : PyDict → PyDict → PyDict) (out : PyDict) (k : List Char)
    (v w : JVal) (p : PyDict × PyDict) (h : dGet out k = some w)
    (he : isEmptyVal w = false) (hb : bothObjs w v = some p) :
    dmStepWith mrg out k v = dSet out k (.obj (mrg p.1 p.2)) := by
  unfold dmStepWith
  rw [h, dmStepVal, if_neg (by simp [he]), hb]

theorem dmStep_someKeep (mrg : PyDict → PyDict → PyDict) (out : PyDict) (k : List Char)
    (v w : JVal) (h : dGet out k = some w)
    (he : isEmptyVal w = false) (hb : bothObjs w v = none) :
    dmStepWith mrg out k v = out := by
  unfold dmStepWith
  rw [h, dmStepVal, if_neg (by simp [he]), hb]

theorem dmStep_congr (mrg1 mrg2 : PyDict → PyDict → PyDict) (out : PyDict)
    (k : List Char) (v : JVal)
    (hm : ∀ wo vo, v = .obj vo → mrg1 wo vo = mrg2 wo vo) :
    dmStepWith mrg1 out k v = dmStepWith mrg2 out k v := by
  rcases hg : dGet out k with _ | w
  · rw [dmStep_none mrg1 out k v hg, dmStep_none mrg2 out k v hg]
  · by_cases he : isEmptyVal w = true
    · rw [dmStep_someEmpty mrg1 out k v w hg he, dmStep_someEmpty mrg2 out k v w hg he]
    · have he' : isEmptyVal w = false := by
        revert he
        cases isEmptyVal w <;> simp
      rcases hb : bothObjs w v with _ | p
      · rw [dmStep_someKeep mrg1 out k v w hg he' hb, dmStep_someKeep mrg2 out k v w hg he' hb]
      · rw [dmStep_someObjs mrg1 out k v w p hg he' hb,
          dmStep_someObjs mrg2 out k v w p hg he' hb,
          hm p.1 p.2 (bothObjs_some w v p hb).2]

theorem dmFuel_irrel : ∀ (f1 f2 : Nat) (a b : PyDict),
    jsizeE b ≤ f1 → jsizeE b ≤ f2 → dmFuel f1 a b = dmFuel f2 a b := by
  intro f1
  induction f1 with
  | zero =>
    intro f2 a b hb _
    have := jsizeE_pos b
    omega
  | succ f ih =>
    intro f2 a b hb1 hb2
    match f2, b with
    | 0, b =>
      have := jsizeE_pos b
      omega
    | f2 + 1, [] => rfl
    | f2 + 1, (k, v) :: rest =>
      have hsz : jsizeE ((k, v) :: rest) = 2 + jsize v + jsizeE rest := rfl
      have hrest1 : jsizeE rest ≤ f := by omega
      have hrest2 : jsizeE rest ≤ f2 := by omega
      rw [dmFuel, dmFuel]
      rw [show dmStepWith (dmFuel f) a k v = dmStepWith (dmFuel f2) a k v from
        dmStep_congr _ _ a k v (by
          intro wo vo hv
          subst hv
          have hv2 : jsize (JVal.obj vo) = 1 + jsizeE vo := rfl
          exact ih f2 wo vo (by omega) (by omega))]
      exact ih f2 _ rest hrest1 hrest2

theorem dmFuel_eq_deep (f : Nat) (a b : PyDict) (hf : jsizeE b ≤ f) :
    dmFuel f a b = deep_merge_objects a b :=
  dmFuel_irrel f (jsizeE b) a b hf le_rfl

theorem deep_merge_nil (out : PyDict) : deep_merge_objects out [] = out := rfl

theorem deep_merge_cons (out : PyDict) (k : List Char) (v : JVal) (rest : PyDict) :
    deep_merge_objects out ((k, v) :: rest) =
      deep_merge_objects (dmStepWith deep_merge_objects out k v) rest := by
  have hsz : jsizeE ((k, v) :: rest) = (1 + jsize v + jsizeE rest) + 1 := by
    rw [show jsizeE ((k, v) :: rest) = 2 + jsize v + jsizeE rest from rfl]
    omega
  show dmFuel (jsizeE ((k, v) :: rest)) out ((k, v) :: rest) = _
  rw [hsz, dmFuel]
  rw [dmFuel_eq_deep (1 + jsize v + jsizeE rest) _ rest (by omega)]
  rw [show dmStepWith (dmFuel (1 + jsize v + jsizeE rest)) out k v
      = dmStepWith deep_merge_objects out k v from
    dmStep_congr _ _ out k v (by
      intro wo vo hv
      subst hv
      have hv2 : jsize (JVal.obj vo) = 1 + jsizeE vo := rfl
      exact dmFuel_eq_deep _ wo vo (by omega))]

theorem dmStep_get_ne (mrg : PyDict → PyDict → PyDict) (out : PyDict)
    (k k1 : List Char) (v1 : JVal) (hk : k ≠ k1) :
    dGet (dmStepWith mrg out k1 v1) k = dGet out k := by
  rcases hg : dGet out k1 with _ | w
  · rw [dmStep_none mrg out k1 v1 hg]
    exact dGet_dSet_ne out k k1 v1 hk
  · by_cases he : isEmptyVal w = true
    · rw [dmStep_someEmpty mrg out k1 v1 w hg he]
      exact dGet_dSet_ne out k k1 v1 hk
    · have he' : isEmptyVal w = false := by
        revert he
        cases isEmptyVal w <;> simp
      rcases hb : bothObjs w v1 with _ | p
      · rw [dmStep_someKeep mrg out k1 v1 w hg he' hb]
      · rw [dmStep_someObjs mrg out k1 v1 w p hg he' hb]
        exact dGet_dSet_ne out k k1 _ hk

theorem deep_merge_not_mem (b : PyDict) :
    ∀ (out : PyDict) (k : List Char), k ∉ b.map Prod.fst →
    dGet (deep_merge_objects out b) k = dGet out k := by
  induction b with
  | nil =>
    intro out k _
    rw [deep_merge_nil]
  | cons e rest ih =>
    intro out k hk
    obtain ⟨k1, v1⟩ := e
    simp only [List.map_cons, List.mem_cons] at hk
    push_neg at hk
    rw [deep_merge_cons, ih _ k hk.2]
    exact dmStep_get_ne _ out k k1 v1 hk.1

theorem deep_merge_lookup (b : PyDict) :
    ∀ (a : PyDict) (k : List Char), (b.map Prod.fst).Nodup →
    dGet (deep_merge_objects a b) k =
      (match dGet a k, dGet b k with
       | none, o => o
       | some w, none => some w
       | some w, some v =>
         if isEmptyVal w then some v
         else
           match bothObjs w v with
           | some p => some (.obj (deep_merge_objects p.1 p.2))
           | none => some w) := by
  induction b with
  | nil =>
    intro a k _
    rw [deep_merge_nil]
    rcases h : dGet a k with _ | w <;> rfl
  | cons e rest ih =>
    intro a k hnd
    obtain ⟨k1, v1⟩ := e
    simp only [List.map_cons, List.nodup_cons] at hnd
    rw [deep_merge_cons]
    by_cases hk : k = k1
    · subst hk
      rw [deep_merge_not_mem rest _ k hnd.1]
      have hb : dGet ((k, v1) :: rest) k = some v1 := by
        simp [dGet]
      rw [hb]
      rcases hg : dGet a k with _ | w
      · rw [dmStep_none _ a k v1 hg]
        exact dGet_dSet_self a k v1
      · by_cases he : isEmptyVal w = true
        · rw [dmStep_someEmpty _ a k v1 w hg he]
          refine (dGet_dSet_self a k v1).trans ?_
          exact (if_pos he).symm
        · have he' : isEmptyVal w = false := by
            revert he
            cases isEmptyVal w <;> simp
          rcases hb2 : bothObjs w v1 with _ | p
          · rw [dmStep_someKeep _ a k v1 w hg he' hb2]
            refine hg.trans (Eq.symm ((if_neg (by simp [he'])).trans ?_))
            rw [hb2]
          · rw [dmStep_someObjs _ a k v1 w p hg he' hb2]
            refine (dGet_dSet_self a k _).trans (Eq.symm ((if_neg (by simp [he'])).trans ?_))
            rw [hb2]
    · have hb : dGet ((k1, v1) :: rest) k = dGet rest k := by
        simp [dGet, hk]
      rw [hb, ih _ k hnd.2, dmStep_get_ne _ a k k1 v1 hk]

theorem dGet_mem {α : Type} (d : List (List Char × α)) (k : List Char) (v : α)
    (h : dGet d k = some v) : (k, v) ∈ d := by
  induction d with
  | nil => simp [dGet] at h
  | cons e rest ih =>
    obtain ⟨k2, v2⟩ := e
    by_cases hk : k = k2
    · subst hk
      simp [dGet] at h
      simp [h]
    · simp only [dGet, if_neg hk] at h
      exact List.mem_cons_of_mem _ (ih h)

theorem jsize_pos (w : JVal) : 1 ≤ jsize w := by
  cases w <;> rw [jsize] <;> omega

theorem jsize_dGet_lt (wo : PyDict) :
    ∀ (k : List Char) (w : JVal), dGet wo k = some w → jsize w < jsizeE wo := by
  induction wo with
  | nil =>
    intro k w h
    simp [dGet] at h
  | cons e rest ih =>
    intro k w h
    obtain ⟨k2, v2⟩ := e
    rw [show jsizeE ((k2, v2) :: rest) = 2 + jsize v2 + jsizeE rest from rfl]
    by_cases hk : k = k2
    · subst hk
      simp [dGet] at h
      subst h
      omega
    · simp only [dGet, if_neg hk] at h
      have := ih k w h
      omega

/-- Deep-merge preservation order: the merged value either equals the
original non-empty value, or both are dicts and every non-empty entry of
the original is preserved recursively. -/
inductive Pres : JVal → JVal → Prop where
  | refl (v : JVal) : Pres v v
  | obj (wo uo : PyDict) :
      (∀ k w, dGet wo k = some w → isEmptyVal w = false →
        (dGet uo k).isSome = true) →
      (∀ k w, dGet wo k = some w → isEmptyVal w = false →
        Pres w ((dGet uo k).getD .null)) →
      Pres (.obj wo) (.obj uo)

/-- All dict levels of a JSON-like value have duplicate-free keys
(always true of values built from Python dicts). -/
inductive NodupRec : JVal → Prop where
  | null : NodupRec .null
  | bool (b : Bool) : NodupRec (.bool b)
  | int (n : Int) : NodupRec (.int n)
  | str (s : List Char) : NodupRec (.str s)
  | arr (xs : List JVal) : (∀ x ∈ xs, NodupRec x) → NodupRec (.arr xs)
  | obj (kvs : PyDict) : (kvs.map Prod.fst).Nodup →
      (∀ p ∈ kvs, NodupRec p.2) → NodupRec (.obj kvs)

theorem nodupRec_obj_nodup (b : PyDict) (h : NodupRec (.obj b)) :
    (b.map Prod.fst).Nodup := by
  cases h
  assumption

theorem nodupRec_obj_val (b : PyDict) (k : List Char) (v : JVal)
    (h : NodupRec (.obj b)) (hg : dGet b k = some v) : NodupRec v := by
  cases h with
  | obj _ _ hv => exact hv (k, v) (dGet_mem b k v hg)

theorem deep_merge_preserves_aux :
    ∀ (n : Nat) (w : JVal), jsize w ≤ n →
    ∀ (a b : PyDict) (k : List Char), NodupRec (.obj b) →
      dGet a k = some w → isEmptyVal w = false →
      ∃ u, dGet (deep_merge_objects a b) k = some u ∧ Pres w u := by
  intro n
  induction n with
  | zero =>
    intro w hw
    have := jsize_pos w
    omega
  | succ n ihn =>
    intro w hw a b k hb hak hne
    have hbn := nodupRec_obj_nodup b hb
    rcases hgb : dGet b k with _ | v
    · refine ⟨w, ?_, Pres.refl w⟩
      rw [deep_merge_lookup b a k hbn, hak, hgb]
    · rcases hbo : bothObjs w v with _ | p
      · refine ⟨w, ?_, Pres.refl w⟩
        rw [deep_merge_lookup b a k hbn, hak, hgb]
        refine (if_neg (by simp [hne])).trans ?_
        rw [hbo]
      · obtain ⟨hw1, hv1⟩ := bothObjs_some w v p hbo
        refine ⟨.obj (deep_merge_objects p.1 p.2), ?_, ?_⟩
        · rw [deep_merge_lookup b a k hbn, hak, hgb]
          refine (if_neg (by simp [hne])).trans ?_
          rw [hbo]
        · subst hw1
          have hvn : NodupRec (.obj p.2) := by
            rw [hv1] at hgb
            exact nodupRec_obj_val b k _ hb hgb
          have hrec : ∀ k' w', dGet p.1 k' = some w' → isEmptyVal w' = false →
              ∃ u, dGet (deep_merge_objects p.1 p.2) k' = some u ∧ Pres w' u := by
            intro k' w' hk' hne'
            refine ihn w' ?_ p.1 p.2 k' hvn hk' hne'
            have h1 := jsize_dGet_lt p.1 k' w' hk'
            have h2 : jsize (JVal.obj p.1) = 1 + jsizeE p.1 := rfl
            omega
          refine Pres.obj p.1 (deep_merge_objects p.1 p.2) ?_ ?_
          · intro k' w' hk' hne'
            obtain ⟨u, hu, _⟩ := hrec k' w' hk' hne'
            rw [hu]
            rfl
          · intro k' w' hk' hne'
            obtain ⟨u, hu, hp⟩ := hrec k' w' hk' hne'
            rw [hu]
            exact hp

/-- C2: deep merge keeps a left value that is non-empty (unless both
values are dicts, which merge recursively), copies keys only present on
the right, replaces an empty left value by the right one, and — at every
nesting depth — never discards an already-present non-empty value
(`Pres`), only filling gaps. -/
theorem c2_deep_merge_spec :
    (∀ (a b : PyDict) (k : List Char), (b.map Prod.fst).Nodup → dGet b k = none →
       dGet (deep_merge_objects a b) k = dGet a k) ∧
    (∀ (a b : PyDict) (k : List Char) (v : JVal), (b.map Prod.fst).Nodup →
       dGet a k = none → dGet b k = some v →
       dGet (deep_merge_objects a b) k = some v) ∧
    (∀ (a b : PyDict) (k : List Char) (w v : JVal), (b.map Prod.fst).Nodup →
       dGet a k = some w → isEmptyVal w = true → dGet b k = some v →
       dGet (deep_merge_objects a b) k = some v) ∧
    (∀ (a b : PyDict) (k : List Char) (wo vo : PyDict), (b.map Prod.fst).Nodup →
       dGet a k = some (.obj wo) → isEmptyVal (.obj wo) = false →
       dGet b k = some (.obj vo) →
       dGet (deep_merge_objects a b) k = some (.obj (deep_merge_objects wo vo))) ∧
    (∀ (a b : PyDict) (k : List Char) (w v : JVal), (b.map Prod.fst).Nodup →
       dGet a k = some w → isEmptyVal w = false → dGet b k = some v →
       bothObjs w v = none →
       dGet (deep_merge_objects a b) k = some w) ∧
    (∀ (a b : PyDict) (k : List Char) (w : JVal), NodupRec (.obj b) →
       dGet a k = some w → isEmptyVal w = false →
       ∃ u, dGet (deep_merge_objects a b) k = some u ∧ Pres w u) := by
  refine ⟨?_, ?_, ?_, ?_, ?_, ?_⟩
  · intro a b k hnd hb
    rw [deep_merge_lookup b a k hnd, hb]
    rcases hg : dGet a k with _ | w <;> rfl
  · intro a b k v hnd ha hb
    rw [deep_merge_lookup b a k hnd, ha, hb]
  · intro a b k w v hnd ha he hb
    rw [deep_merge_lookup b a k hnd, ha, hb]
    exact if_pos he
  · intro a b k wo vo hnd ha hne hb
    rw [deep_merge_lookup b a k hnd, ha, hb]
    refine (if_neg (by simp [hne])).trans ?_
    rw [show bothObjs (JVal.obj wo) (JVal.obj vo) = some (wo, vo) from rfl]
  · intro a b k w v hnd ha hne hb hbo
    rw [deep_merge_lookup b a k hnd, ha, hb]
    refine (if_neg (by simp [hne])).trans ?_
    rw [hbo]
  · intro a b k w hb ha hne
    exact deep_merge_preserves_aux (jsize w) w le_rfl a b k hb ha hne

/-- C2 witnessed at concrete inputs: a non-empty left string survives a
conflicting right value, a right-only key is copied in, and the
preservation relation holds for the merged result. -/
theorem c2_witness :
    dGet (deep_merge_objects [(pych "y", JVal.str (pych "a"))]
      [(pych "y", JVal.str (pych "b"))]) (pych "y") = some (JVal.str (pych "a")) ∧
    dGet (deep_merge_objects [] [(pych "x", JVal.int 1)]) (pych "x") = some (JVal.int 1) ∧
    (∃ u, dGet (deep_merge_objects [(pych "y", JVal.str (pych "a"))]
      [(pych "y", JVal.str (pych "b"))]) (pych "y") = some u ∧ Pres (JVal.str (pych "a")) u) := by
  refine ⟨?_, ?_, ?_⟩
  · exact c2_deep_merge_spec.2.2.2.2.1 [(pych "y", .str (pych "a"))]
      [(pych "y", .str (pych "b"))] (pych "y") (.str (pych "a")) (.str (pych "b"))
      (by decide) rfl rfl rfl rfl
  · exact c2_deep_merge_spec.2.1 [] [(pych "x", .int 1)] (pych "x") (.int 1)
      (by decide) rfl rfl
  · exact c2_deep_merge_spec.2.2.2.2.2 [(pych "y", .str (pych "a"))]
      [(pych "y", .str (pych "b"))] (pych "y") (.str (pych "a"))
      (NodupRec.obj _ (by decide) (by
        intro p hp
        simp at hp
        rw [hp]
        exact NodupRec.str _)) rfl rfl

/- -----------------------
   Claim C7: array-of-scalars merge
   ----------------------- -/

/-- The declarative description of the scalar-array merge: flatten the
coerced chunk arrays, drop nulls, keep the first occurrence per
canonical key. -/
def dropNullDedup (seen : List (List Char)) (items : List JVal) : List JVal :=
  dedupFirstBy canonKey seen (items.filter (fun x => !isNullB x))

theorem dedupFirstBy_cons {α : Type} (f : α → List Char) (seen : List (List Char))
    (x : α) (xs : List α) :
    dedupFirstBy f seen (x :: xs) =
      (if f x ∈ seen then dedupFirstBy f seen xs
       else x :: dedupFirstBy f (seen ++ [f x]) xs) := by
  rw [dedupFirstBy]

theorem dedupFirstBy_append {α : Type} (f : α → List Char) (xs : List α) :
    ∀ (seen : List (List Char)) (ys : List α),
    dedupFirstBy f seen (xs ++ ys) =
      dedupFirstBy f seen xs ++
        dedupFirstBy f (seen ++ (dedupFirstBy f seen xs).map f) ys := by
  induction xs with
  | nil =>
    intro seen ys
    simp [dedupFirstBy]
  | cons x rest ih =>
    intro seen ys
    simp only [List.cons_append]
    rw [dedupFirstBy_cons, dedupFirstBy_cons]
    by_cases h : f x ∈ seen
    · rw [if_pos h, if_pos h, ih]
    · rw [if_neg h, if_neg h, ih]
      simp [List.append_assoc]

theorem scalarLoop_spec (items : List JVal) :
    ∀ (seen : List (List Char)) (out : List JVal),
    scalarLoop seen out items =
      (seen ++ (dropNullDedup seen items).map canonKey,
       out ++ dropNullDedup seen items) := by
  induction items with
  | nil =>
    intro seen out
    simp [scalarLoop, dropNullDedup, dedupFirstBy]
  | cons item rest ih =>
    intro seen out
    by_cases hn : isNullB item = true
    · rw [show scalarLoop seen out (item :: rest) = scalarLoop seen out rest from by
        rw [scalarLoop, if_pos hn]]
      rw [ih]
      rw [show dropNullDedup seen (item :: rest) = dropNullDedup seen rest from by
        simp [dropNullDedup, List.filter, hn]]
    · by_cases hs : canonKey item ∈ seen
      · rw [show scalarLoop seen out (item :: rest) = scalarLoop seen out rest from by
          rw [scalarLoop, if_neg (by simp [hn]), if_pos hs]]
        rw [ih]
        rw [show dropNullDedup seen (item :: rest) = dropNullDedup seen rest from by
          simp only [dropNullDedup]
          rw [show List.filter (fun x => !isNullB x) (item :: rest)
              = item :: List.filter (fun x => !isNullB x) rest from by
            simp [List.filter, hn]]
          rw [dedupFirstBy_cons, if_pos hs]]
      · rw [show scalarLoop seen out (item :: rest) =
            scalarLoop (seen ++ [canonKey item]) (out ++ [item]) rest from by
          rw [scalarLoop, if_neg (by simp [hn]), if_neg hs]]
        rw [ih]
        rw [show dropNullDedup seen (item :: rest) =
            item :: dropNullDedup (seen ++ [canonKey item]) rest from by
          simp only [dropNullDedup]
          rw [show List.filter (fun x => !isNullB x) (item :: rest)
              = item :: List.filter (fun x => !isNullB x) rest from by
            simp [List.filter, hn]]
          rw [dedupFirstBy_cons, if_neg hs]]
        simp [List.append_assoc]

theorem merge_array_of_scalars_spec (values : List JVal) :
    merge_array_of_scalars values =
      dedupFirstBy canonKey []
        (((values.map coerce_to_list).flatten).filter (fun x => !isNullB x)) := by
  have main : ∀ (vs : List JVal) (seen : List (List Char)) (out : List JVal),
      vs.foldl (fun st v => scalarLoop st.1 st.2 (coerce_to_list v)) (seen, out) =
        (seen ++ (dropNullDedup seen ((vs.map coerce_to_list).flatten)).map canonKey,
         out ++ dropNullDedup seen ((vs.map coerce_to_list).flatten)) := by
    intro vs
    induction vs with
    | nil =>
      intro seen out
      simp [dropNullDedup, dedupFirstBy]
    | cons v rest ih =>
      intro seen out
      simp only [List.foldl_cons]
      rw [scalarLoop_spec (coerce_to_list v) seen out, ih]
      rw [show ((v :: rest).map coerce_to_list).flatten
          = coerce_to_list v ++ (rest.map coerce_to_list).flatten from by simp]
      simp only [dropNullDedup, List.filter_append]
      rw [dedupFirstBy_append]
      simp [List.append_assoc]
  show (values.foldl (fun st v => scalarLoop st.1 st.2 (coerce_to_list v)) ([], [])).2 = _
  rw [main values [] []]
  simp [dropNullDedup]

theorem jvalIsStrLit_iff (t : JVal) (s : List Char) :
    jvalIsStrLit t s = true ↔ t = .str s := by
  cases t <;> simp [jvalIsStrLit]

/-- C7: for an array field whose declared item type is not `"object"`,
the merged value is the chunk-order concatenation of the coerced arrays
with nulls dropped and duplicates removed by canonical key (stable
sorted-key JSON for compound items, plain string form otherwise),
keeping first-seen order; in particular `["x","y"]` then `["y","z"]`
merge to `["x","y","z"]`. -/
theorem c7_scalar_arrays :
    (∀ (items_schema : PyDict) (values : List JVal),
       schema_typeD items_schema ≠ JVal.str (pych "object") →
       merge_arraysE values items_schema =
         some (dedupFirstBy canonKey []
           (((values.map coerce_to_list).flatten).filter (fun x => !isNullB x)))) ∧
    merge_array_of_scalars
        [.arr [.str (pych "x"), .str (pych "y")], .arr [.str (pych "y"), .str (pych "z")]]
      = [.str (pych "x"), .str (pych "y"), .str (pych "z")] := by
  constructor
  · intro items_schema values hne
    rw [merge_arraysE, if_neg (by
      intro hc
      exact hne ((jvalIsStrLit_iff _ _).mp hc))]
    rw [merge_array_of_scalars_spec]
  · rfl

/-- C7 witnessed: the empty item schema resolves to type `"string"`,
so the scalar-array path is taken on the concrete example. -/
theorem c7_witness :
    merge_arraysE
        [.arr [.str (pych "x"), .str (pych "y")], .arr [.str (pych "y"), .str (pych "z")]] []
      = some (dedupFirstBy canonKey []
          (((([.arr [.str (pych "x"), .str (pych "y")],
               .arr [.str (pych "y"), .str (pych "z")]]).map coerce_to_list).flatten).filter
            (fun x => !isNullB x))) :=
  c7_scalar_arrays.1 [] _ (by
    intro h
    rw [show schema_typeD [] = JVal.str (pych "string") from rfl] at h
    injection h with h2
    exact absurd h2 (by decide))

/- -----------------------
   Claim C8: concat-policy strings
   ----------------------- -/

def descSchema : PyDict :=
  [(pych "properties", .obj [(pych "description", .obj [(pych "type", .str (pych "string"))])])]

/-- C8: under the `concat` policy the trimmed non-empty candidates are
deduplicated by their first-120-character key, the survivors joined by a
blank line, and the JOINED result truncated to the length budget; hence
two chunks contributing the identical text merge to that text exactly
once (shown through the aggregator on a `description` field). -/
theorem c8_concat :
    (∀ values : List JVal, merge_strings values (pych "concat") 1600 =
      (if (trimmedStrs values).isEmpty then none
       else some ((joinSep (pych "\n\n")
         (dedupFirstBy (fun s => s.take 120) [] (trimmedStrs values))).take 1600))) ∧
    (∀ (values : List JVal) (out : List Char),
       merge_strings values (pych "concat") 1600 = some out → out.length ≤ 1600) ∧
    (∀ s : List Char, pyStrip s ≠ [] →
       merge_strings [.str s, .str s] (pych "concat") 1600 = some ((pyStrip s).take 1600)) ∧
    aggregate_chunk_dicts
        [[(pych "description", .str (pych "Hello world."))],
         [(pych "description", .str (pych "Hello world."))]]
        descSchema none none
      = some [(pych "description", .str (pych "Hello world."))] := by
  have hchar : ∀ values : List JVal, merge_strings values (pych "concat") 1600 =
      (if (trimmedStrs values).isEmpty then none
       else some ((joinSep (pych "\n\n")
         (dedupFirstBy (fun s => s.take 120) [] (trimmedStrs values))).take 1600)) :=
    fun values => rfl
  refine ⟨hchar, ?_, ?_, rfl⟩
  · intro values out h
    rw [hchar values] at h
    by_cases he : (trimmedStrs values).isEmpty
    · rw [if_pos he] at h
      exact Option.noConfusion h
    · rw [if_neg he] at h
      have h2 := Option.some.inj h
      rw [← h2, List.length_take]
      omega
  · intro s hs
    have he : ((pyStrip s).isEmpty : Bool) = false := by
      rw [List.isEmpty_eq_false]
      exact hs
    rw [hchar]
    have ht : trimmedStrs [.str s, .str s] = [pyStrip s, pyStrip s] := by
      simp only [trimmedStrs, List.filterMap_cons, List.filterMap_nil]
      simp [he]
    rw [ht]
    rw [show dedupFirstBy (fun u => u.take 120) [] [pyStrip s, pyStrip s] = [pyStrip s] from by
      rw [dedupFirstBy_cons, if_neg (by simp), dedupFirstBy_cons,
        if_pos (by simp), dedupFirstBy]]
    rw [show joinSep (pych "\n\n") [pyStrip s] = pyStrip s from rfl]
    simp [List.isEmpty_eq_false.mpr hs]

/-- C8 witnessed at a concrete duplicated text. -/
theorem c8_witness :
    merge_strings [.str (pych "Hello world."), .str (pych "Hello world.")] (pych "concat") 1600
        = some ((pyStrip (pych "Hello world.")).take 1600) ∧
    (pyStrip (pych "Hello world.")).take 1600 = pych "Hello world." := by
  constructor
  · exact c8_concat.2.2.1 (pych "Hello world.") (by decide)
  · rfl

/- -----------------------
   Claim C10: first-policy strings
   ----------------------- -/

theorem head_dropWhile_not (p : Char → Bool) (l : List Char) :
    ∀ c, (l.dropWhile p).head? = some c → p c = false := by
  induction l with
  | nil =>
    intro c h
    simp [List.dropWhile] at h
  | cons x xs ih =>
    intro c h
    by_cases hp : p x = true
    · rw [List.dropWhile_cons_of_pos hp] at h
      exact ih c h
    · rw [List.dropWhile_cons_of_neg hp] at h
      simp at h
      rw [← h]
      revert hp
      cases p x <;> simp
  
theorem getLast_dropWhile (p : Char → Bool) (l : List Char)
    (h : l.dropWhile p ≠ []) : (l.dropWhile p).getLast? = l.getLast? := by
  induction l with
  | nil => simp [List.dropWhile] at h
  | cons x xs ih =>
    by_cases hp : p x = true
    · rw [List.dropWhile_cons_of_pos hp] at h ⊢
      rw [ih h]
      have hxs : xs ≠ [] := by
        intro hx
        rw [hx] at h
        simp [List.dropWhile] at h
      cases xs with
      | nil => exact absurd rfl hxs
      | cons y ys => rw [List.getLast?_cons_cons]
    · rw [List.dropWhile_cons_of_neg hp]

theorem pyStrip_ends (s : List Char) :
    (∀ c, (pyStrip s).head? = some c → isSpaceCh c = false) ∧
    (∀ c, (pyStrip s).getLast? = some c → isSpaceCh c = false) := by
  constructor
  · intro c h
    rw [pyStrip, List.head?_reverse] at h
    have hne : (s.dropWhile isSpaceCh).reverse.dropWhile isSpaceCh ≠ [] := by
      intro hx
      rw [hx] at h
      simp at h
    rw [getLast_dropWhile isSpaceCh _ hne, List.getLast?_reverse] at h
    exact head_dropWhile_not isSpaceCh _ c h
  · intro c h
    rw [pyStrip, List.getLast?_reverse] at h
    exact head_dropWhile_not isSpaceCh _ c h

/-- C10: under the default `first` policy only actual strings are
candidates (wrong-typed values are skipped even when first), each
candidate is trimmed before selection, the result is the first trimmed
non-empty candidate, and a returned string never carries leading or
trailing whitespace. -/
theorem c10_first_policy :
    (∀ values : List JVal,
       merge_strings values (pych "first") 1600 = (trimmedStrs values).head?) ∧
    (∀ (values : List JVal) (out : List Char),
       merge_strings values (pych "first") 1600 = some out →
       (∀ c, out.head? = some c → isSpaceCh c = false) ∧
       (∀ c, out.getLast? = some c → isSpaceCh c = false)) ∧
    merge_strings [.int 7, .str (pych "  x ")] (pych "first") 1600 = some (pych "x") ∧
    aggregate_chunk_dicts [[(pych "title", .int 7)], [(pych "title", .str (pych " x "))]]
        c1Schema none none
      = some [(pych "title", .str (pych "x"))] := by
  have hchar : ∀ values : List JVal,
      merge_strings values (pych "first") 1600 = (trimmedStrs values).head? := by
    intro values
    by_cases he : (trimmedStrs values).isEmpty
    · rw [show merge_strings values (pych "first") 1600 =
          (if (trimmedStrs values).isEmpty then none else (trimmedStrs values).head?) from rfl,
        if_pos he, List.isEmpty_iff.mp he]
      rfl
    · rw [show merge_strings values (pych "first") 1600 =
          (if (trimmedStrs values).isEmpty then none else (trimmedStrs values).head?) from rfl,
        if_neg he]
  refine ⟨hchar, ?_, rfl, rfl⟩
  intro values out h
  rw [hchar values] at h
  have hmem : out ∈ trimmedStrs values := by
    rcases ht : trimmedStrs values with _ | ⟨t, rest⟩
    · rw [ht] at h
      exact Option.noConfusion h
    · rw [ht] at h
      simp at h
      rw [← h]
      simp
  have hform : ∃ s0, out = pyStrip s0 := by
    rw [trimmedStrs, List.mem_filterMap] at hmem
    obtain ⟨v, _, hv⟩ := hmem
    cases v with
    | str s0 =>
      simp at hv
      exact ⟨s0, hv.2.symm⟩
    | null => simp at hv
    | bool b => simp at hv
    | int n => simp at hv
    | arr l => simp at hv
    | obj o => simp at hv
  obtain ⟨s0, hs0⟩ := hform
  rw [hs0]
  exact pyStrip_ends s0

/-- C10 witnessed: the number `7` in the first chunk is skipped and the
later string is trimmed. -/
theorem c10_witness :
    (∀ c, (pych "x").head? = some c → isSpaceCh c = false) ∧
    (∀ c, (pych "x").getLast? = some c → isSpaceCh c = false) :=
  c10_first_policy.2.1 [.int 7, .str (pych "  x ")] (pych "x")
    c10_first_policy.2.2.1

/- -----------------------
   Claim C9: post-pass injection
   ----------------------- -/

theorem injectTechnical_some (props td o : PyDict) :
    injectTechnical props (some td) o =
      (if dMem props (pych "technical")
          && !isObjB ((dGet o (pych "technical")).getD .null) then
        dSet o (pych "technical") (.obj td)
       else o) := rfl

theorem injectTechnical_none (props o : PyDict) :
    injectTechnical props none o = o := rfl

theorem injectFiletype_some (props : PyDict) (fs : List Char) (o : PyDict) :
    injectFiletype props (some fs) o =
      (if dMem props (pych "filetype")
          && !pyTruthy ((dGet o (pych "filetype")).getD .null) then
        dSet o (pych "filetype") (.str fs)
       else o) := rfl

theorem injectFiletype_none (props o : PyDict) :
    injectFiletype props none o = o := rfl

/-- C9: for a non-empty chunk list, relative to the per-field computed
record `m`, the technical metadata is injected verbatim iff declared,
supplied, and the computed value is not a dict; the filetype guess is
injected verbatim iff declared, supplied, and the computed value is
falsy; and every other key of the result equals its computed value
(restricted to declared keys). -/
theorem c9_injection (c : PyDict) (cs : List PyDict) (schema : PyDict)
    (t : Option PyDict) (f : Option (List Char)) (r : PyDict)
    (h : aggregate_chunk_dicts (c :: cs) schema t f = some r) :
    ∃ m, computeFieldsE (c :: cs) (schema_properties schema) [] = some m ∧
      (dGet r (pych "technical") =
        (match t with
         | some td =>
           if dMem (schema_properties schema) (pych "technical")
               && !isObjB ((dGet m (pych "technical")).getD .null) then
             some (.obj td)
           else if dMem (schema_properties schema) (pych "technical") then
             dGet m (pych "technical")
           else none
         | none =>
           if dMem (schema_properties schema) (pych "technical") then
             dGet m (pych "technical")
           else none)) ∧
      (dGet r (pych "filetype") =
        (match f with
         | some fs =>
           if dMem (schema_properties schema) (pych "filetype")
               && !pyTruthy ((dGet m (pych "filetype")).getD .null) then
             some (.str fs)
           else if dMem (schema_properties schema) (pych "filetype") then
             dGet m (pych "filetype")
           else none
         | none =>
           if dMem (schema_properties schema) (pych "filetype") then
             dGet m (pych "filetype")
           else none)) ∧
      (∀ k, k ≠ pych "technical" → k ≠ pych "filetype" →
         dGet r k = if dMem (schema_properties schema) k then dGet m k else none) := by
  have hTF : pych "technical" ≠ pych "filetype" := by decide
  have hFT : pych "filetype" ≠ pych "technical" := by decide
  rw [aggregate_chunk_dicts] at h
  simp only [List.isEmpty_cons, Bool.false_eq_true, if_false] at h
  have hex : ∃ m, computeFieldsE (c :: cs) (schema_properties schema) [] = some m := by
    rcases hcf : computeFieldsE (c :: cs) (schema_properties schema) [] with _ | m
    · rw [hcf] at h
      exact absurd h (by simp)
    · exact ⟨m, rfl⟩
  obtain ⟨m, hcf⟩ := hex
  rw [hcf] at h
  have h' : some ((injectFiletype (schema_properties schema) f
      (injectTechnical (schema_properties schema) t m)).filter
        (fun kv => dMem (schema_properties schema) kv.1)) = some r := h
  have hr := Option.some.inj h'
  subst hr
  have h3 : dGet (injectTechnical (schema_properties schema) t m) (pych "filetype")
      = dGet m (pych "filetype") := by
    cases t with
    | none => rfl
    | some td =>
      rw [injectTechnical_some]
      by_cases hc : (dMem (schema_properties schema) (pych "technical")
          && !isObjB ((dGet m (pych "technical")).getD .null)) = true
      · rw [if_pos hc]
        exact dGet_dSet_ne m _ _ _ hFT
      · rw [if_neg hc]
  refine ⟨m, hcf, ?_, ?_, ?_⟩
  · rw [dGet_filter_key]
    have h2 : dGet (injectFiletype (schema_properties schema) f
        (injectTechnical (schema_properties schema) t m)) (pych "technical")
        = dGet (injectTechnical (schema_properties schema) t m) (pych "technical") := by
      cases f with
      | none => rfl
      | some fs =>
        rw [injectFiletype_some]
        by_cases hc : (dMem (schema_properties schema) (pych "filetype")
            && !pyTruthy ((dGet (injectTechnical (schema_properties schema) t m)
              (pych "filetype")).getD .null)) = true
        · rw [if_pos hc]
          exact dGet_dSet_ne _ _ _ _ hTF
        · rw [if_neg hc]
    rw [h2]
    cases t with
    | none => rfl
    | some td =>
      have key : (if dMem (schema_properties schema) (pych "technical") = true
          then dGet (injectTechnical (schema_properties schema) (some td) m) (pych "technical")
          else none) =
          (if dMem (schema_properties schema) (pych "technical")
              && !isObjB ((dGet m (pych "technical")).getD .null) then
            some (JVal.obj td)
          else if dMem (schema_properties schema) (pych "technical") = true then
            dGet m (pych "technical")
          else none) := by
        rw [injectTechnical_some]
        by_cases hc : (dMem (schema_properties schema) (pych "technical")
            && !isObjB ((dGet m (pych "technical")).getD .null)) = true
        · rw [if_pos hc, dGet_dSet_self]
          have hd : dMem (schema_properties schema) (pych "technical") = true := by
            simp only [Bool.and_eq_true] at hc
            exact hc.1
          rw [if_pos hc, hd]
          simp
        · rw [if_neg hc, if_neg hc]
      exact key
  · rw [dGet_filter_key]
    cases f with
    | none =>
      have key : (if dMem (schema_properties schema) (pych "filetype") = true
          then dGet (injectFiletype (schema_properties schema) none
            (injectTechnical (schema_properties schema) t m)) (pych "filetype")
          else none) =
          (if dMem (schema_properties schema) (pych "filetype") = true then
            dGet m (pych "filetype")
          else none) := by
        rw [injectFiletype_none, h3]
      exact key
    | some fs =>
      have key : (if dMem (schema_properties schema) (pych "filetype") = true
          then dGet (injectFiletype (schema_properties schema) (some fs)
            (injectTechnical (schema_properties schema) t m)) (pych "filetype")
          else none) =
          (if dMem (schema_properties schema) (pych "filetype")
              && !pyTruthy ((dGet m (pych "filetype")).getD .null) then
            some (JVal.str fs)
          else if dMem (schema_properties schema) (pych "filetype") = true then
            dGet m (pych "filetype")
          else none) := by
        rw [injectFiletype_some, h3]
        by_cases hc : (dMem (schema_properties schema) (pych "filetype")
            && !pyTruthy ((dGet m (pych "filetype")).getD .null)) = true
        · rw [if_pos hc, dGet_dSet_self]
          have hd : dMem (schema_properties schema) (pych "filetype") = true := by
            simp only [Bool.and_eq_true] at hc
            exact hc.1
          rw [if_pos hc, hd]
          simp
        · rw [if_neg hc, if_neg hc, h3]
      exact key
  · intro k hkT hkF
    rw [dGet_filter_key]
    have h4 : dGet (injectFiletype (schema_properties schema) f
        (injectTechnical (schema_properties schema) t m)) k
        = dGet (injectTechnical (schema_properties schema) t m) k := by
      cases f with
      | none => rfl
      | some fs =>
        rw [injectFiletype_some]
        by_cases hc : (dMem (schema_properties schema) (pych "filetype")
            && !pyTruthy ((dGet (injectTechnical (schema_properties schema) t m)
              (pych "filetype")).getD .null)) = true
        · rw [if_pos hc]
          exact dGet_dSet_ne _ _ _ _ hkF
        · rw [if_neg hc]
    have h5 : dGet (injectTechnical (schema_properties schema) t m) k = dGet m k := by
      cases t with
      | none => rfl
      | some td =>
        rw [injectTechnical_some]
        by_cases hc : (dMem (schema_properties schema) (pych "technical")
            && !isObjB ((dGet m (pych "technical")).getD .null)) = true
        · rw [if_pos hc]
          exact dGet_dSet_ne _ _ _ _ hkT
        · rw [if_neg hc]
    rw [h4, h5]

def c9Schema : PyDict :=
  [(pych "properties", .obj
    [(pych "title", .obj [(pych "type", .str (pych "string"))]),
     (pych "technical", .obj [(pych "type", .str (pych "string"))]),
     (pych "filetype", .obj [(pych "type", .str (pych "string"))])])]

/-- C9 witnessed: with one empty chunk, the computed `technical` and
`filetype` are null, so the metadata dict and the guess are injected. -/
theorem c9_witness :
    ∃ m, computeFieldsE [([] : PyDict)] (schema_properties c9Schema) [] = some m ∧
      (dGet [(pych "title", JVal.null),
             (pych "technical", JVal.obj [(pych "sha256", JVal.str (pych "abc"))]),
             (pych "filetype", JVal.str (pych "pdf"))] (pych "technical") =
        (match some [(pych "sha256", JVal.str (pych "abc"))] with
         | some td =>
           if dMem (schema_properties c9Schema) (pych "technical")
               && !isObjB ((dGet m (pych "technical")).getD .null) then
             some (.obj td)
           else if dMem (schema_properties c9Schema) (pych "technical") then
             dGet m (pych "technical")
           else none
         | none =>
           if dMem (schema_properties c9Schema) (pych "technical") then
             dGet m (pych "technical")
           else none)) ∧
      (dGet [(pych "title", JVal.null),
             (pych "technical", JVal.obj [(pych "sha256", JVal.str (pych "abc"))]),
             (pych "filetype", JVal.str (pych "pdf"))] (pych "filetype") =
        (match some (pych "pdf") with
         | some fs =>
           if dMem (schema_properties c9Schema) (pych "filetype")
               && !pyTruthy ((dGet m (pych "filetype")).getD .null) then
             some (.str fs)
           else if dMem (schema_properties c9Schema) (pych "filetype") then
             dGet m (pych "filetype")
           else none
         | none =>
           if dMem (schema_properties c9Schema) (pych "filetype") then
             dGet m (pych "filetype")
           else none)) ∧
      (∀ k, k ≠ pych "technical" → k ≠ pych "filetype" →
         dGet [(pych "title", JVal.null),
               (pych "technical", JVal.obj [(pych "sha256", JVal.str (pych "abc"))]),
               (pych "filetype", JVal.str (pych "pdf"))] k =
           if dMem (schema_properties c9Schema) k then dGet m k else none) :=
  c9_injection [] [] c9Schema (some [(pych "sha256", .str (pych "abc"))])
    (some (pych "pdf"))
    [(pych "title", JVal.null),
     (pych "technical", JVal.obj [(pych "sha256", JVal.str (pych "abc"))]),
     (pych "filetype", JVal.str (pych "pdf"))] rfl

/- -----------------------
   Claim C3: identity signatures
   ----------------------- -/

def c3ItemsSchema : PyDict :=
  [(pych "properties", .obj
    [(pych "id", .obj [(pych "type", .str (pych "string"))]),
     (pych "code", .obj [(pych "type", .str (pych "string"))])])]

def c3o1 : PyDict := [(pych "id", .str (pych "a|code=b"))]

def c3o2 : PyDict := [(pych "id", .str (pych "a")), (pych "code", .str (pych "b"))]

/-- C3 counterexample: both identity keys are derived, the two items
disagree on the key `"id"` even after normalization, yet their
signatures collide (the value embeds the separator characters), so the
merge deduplicates them into a single entry. -/
theorem c3_counterexample :
    derive_identity_keysE c3ItemsSchema = some [pych "id", pych "code"] ∧
    object_signature c3o1 [pych "id", pych "code"]
      = object_signature c3o2 [pych "id", pych "code"] ∧
    merge_array_of_objectsE [.arr [.obj c3o1], .arr [.obj c3o2]] c3ItemsSchema
      = some [.obj [(pych "id", .str (pych "a|code=b")), (pych "code", .str (pych "b"))]] ∧
    norm_scalar (.str (pych "a|code=b")) ≠ norm_scalar (.str (pych "a")) := by
  refine ⟨rfl, rfl, rfl, by decide⟩

/-- The normalized contribution of a chosen key: the trimmed, lowered
value when present and non-empty. -/
def contribNorm (o : PyDict) (k : List Char) : Option (List Char) :=
  match dGet o k with
  | some v => if isEmptyVal v then none else some (norm_scalar v)
  | none => none

theorem sigParts_eq (o : PyDict) (keys : List (List Char)) :
    sigParts o keys =
      keys.filterMap (fun k => (contribNorm o k).map (fun nv => k ++ '=' :: nv)) := by
  rw [sigParts]
  induction keys with
  | nil => rfl
  | cons k ks ih =>
    simp only [List.filterMap_cons]
    rw [← ih]
    rcases hg : dGet o k with _ | v
    · simp [contribNorm, hg]
    · by_cases he : isEmptyVal v = true
      · simp [contribNorm, hg, he]
      · simp [contribNorm, hg, he]

/- Number rendering and parsing round trips. -/

theorem natDecimal_lt (n : Nat) (h : n < 10) : natDecimal n = [digitCh n] := by
  rw [natDecimal]
  exact dif_pos h

theorem natDecimal_ge (n : Nat) (h : ¬n < 10) :
    natDecimal n = natDecimal (n / 10) ++ [digitCh (n % 10)] := by
  rw [natDecimal]
  exact dif_neg h

theorem digitCh_isDigit (m : Nat) (h : m < 10) : isDigitCh (digitCh m) = true := by
  interval_cases m <;> decide

theorem digitVal_digitCh (m : Nat) (h : m < 10) : digitVal (digitCh m) = m := by
  interval_cases m <;> decide

theorem natDecimal_spec : ∀ n : Nat,
    natDecimal n ≠ [] ∧ ∀ c ∈ natDecimal n, isDigitCh c = true := by
  intro n
  induction n using Nat.strong_induction_on with
  | _ n ih =>
    by_cases h : n < 10
    · rw [natDecimal_lt n h]
      refine ⟨by simp, ?_⟩
      intro c hc
      simp at hc
      rw [hc]
      exact digitCh_isDigit n h
    · rw [natDecimal_ge n h]
      have ih2 := ih (n / 10) (Nat.div_lt_self (by omega) (by omega))
      refine ⟨by simp [ih2.1], ?_⟩
      intro c hc
      rw [List.mem_append] at hc
      rcases hc with hc | hc
      · exact ih2.2 c hc
      · simp at hc
        rw [hc]
        exact digitCh_isDigit _ (Nat.mod_lt _ (by omega))

theorem decDigits_append (acc : Nat) (xs ys : List Char) :
    decDigits acc (xs ++ ys) = decDigits (decDigits acc xs) ys := by
  induction xs generalizing acc with
  | nil => rfl
  | cons c cs ih =>
    rw [show (c :: cs) ++ ys = c :: (cs ++ ys) from rfl]
    rw [show decDigits acc (c :: (cs ++ ys)) = decDigits (10 * acc + digitVal c) (cs ++ ys) from rfl]
    rw [ih]
    rw [show decDigits acc (c :: cs) = decDigits (10 * acc + digitVal c) cs from rfl]

theorem decDigits_natDecimal : ∀ n acc : Nat,
    decDigits acc (natDecimal n) = acc * 10 ^ (natDecimal n).length + n := by
  intro n
  induction n using Nat.strong_induction_on with
  | _ n ih =>
    intro acc
    by_cases h : n < 10
    · rw [natDecimal_lt n h]
      rw [show decDigits acc [digitCh n] = 10 * acc + digitVal (digitCh n) from rfl]
      rw [digitVal_digitCh n h]
      rw [show ([digitCh n] : List Char).length = 1 from rfl, pow_one]
      omega
    · rw [natDecimal_ge n h]
      rw [decDigits_append]
      have ih2 := ih (n / 10) (Nat.div_lt_self (by omega) (by omega)) acc
      rw [ih2]
      rw [show ∀ m : Nat, decDigits m [digitCh (n % 10)]
          = 10 * m + digitVal (digitCh (n % 10)) from fun m => rfl]
      rw [digitVal_digitCh _ (Nat.mod_lt _ (by omega))]
      rw [List.length_append, List.length_cons, List.length_nil, pow_succ]
      have hmod : 10 * (n / 10) + n % 10 = n := by omega
      calc 10 * (acc * 10 ^ (natDecimal (n / 10)).length + n / 10) + n % 10
          = acc * (10 ^ (natDecimal (n / 10)).length * 10) + (10 * (n / 10) + n % 10) := by
            ring
        _ = acc * (10 ^ (natDecimal (n / 10)).length * 10) + n := by
            rw [hmod]

/- Parsing round trips for the serializer's grammar. -/

/-- The remainder does not start with a decimal digit, so a number
literal placed in front of it parses greedily to exactly itself. -/
def noDigitHead : List Char → Bool
  | [] => true
  | c :: _ => !isDigitCh c

theorem noDigitHead_head (r : List Char) (h : noDigitHead r = true) :
    ∀ c ∈ r.head?, isDigitCh c = false := by
  cases r with
  | nil => intro c hc; simp at hc
  | cons c cs =>
    intro d hd
    simp only [List.head?] at hd
    rw [Option.mem_def, Option.some.injEq] at hd
    subst hd
    simpa [noDigitHead] using h

theorem takeWhile_all_append (p : Char → Bool) (xs ys : List Char)
    (h1 : ∀ c ∈ xs, p c = true)
    (h2 : ∀ c ∈ ys.head?, p c = false) :
    (xs ++ ys).takeWhile p = xs ∧ (xs ++ ys).dropWhile p = ys := by
  induction xs with
  | nil =>
    simp only [List.nil_append]
    cases ys with
    | nil => exact ⟨rfl, rfl⟩
    | cons c cs =>
      have hc : p c = false := h2 c (by simp)
      constructor
      · simp [List.takeWhile_cons, hc]
      · simp [List.dropWhile_cons, hc]
  | cons c cs ih =>
    have hc : p c = true := h1 c (by simp)
    have ih2 := ih (fun d hd => h1 d (by simp [hd]))
    constructor
    · simp [List.takeWhile_cons, hc, ih2.1]
    · simp [List.dropWhile_cons, hc, ih2.2]

theorem parseNat_roundtrip (n : Nat) (r : List Char)
    (hr : noDigitHead r = true) :
    parseNat (natDecimal n ++ r) = some (n, r) := by
  have hspec := natDecimal_spec n
  have htw := takeWhile_all_append isDigitCh (natDecimal n) r hspec.2
    (noDigitHead_head r hr)
  rw [parseNat]
  simp only [htw.1, htw.2]
  rw [if_neg (by simpa [List.isEmpty_iff] using hspec.1)]
  rw [decDigits_natDecimal n 0]
  simp

theorem escCh_spec (c : Char) :
    (∃ e, escCh c = ['\\', e] ∧ unescCh e = some c) ∨
    (escCh c = [c] ∧ c ≠ '"' ∧ c ≠ '\\') := by
  by_cases h1 : c = '"'
  · subst h1; exact Or.inl ⟨'"', rfl, rfl⟩
  by_cases h2 : c = '\\'
  · subst h2; exact Or.inl ⟨'\\', rfl, rfl⟩
  by_cases h3 : c = '\n'
  · subst h3; exact Or.inl ⟨'n', rfl, rfl⟩
  by_cases h4 : c = '\t'
  · subst h4; exact Or.inl ⟨'t', rfl, rfl⟩
  by_cases h5 : c = '\r'
  · subst h5; exact Or.inl ⟨'r', rfl, rfl⟩
  by_cases h6 : c = '\x08'
  · subst h6; exact Or.inl ⟨'b', rfl, rfl⟩
  by_cases h7 : c = '\x0c'
  · subst h7; exact Or.inl ⟨'f', rfl, rfl⟩
  refine Or.inr ⟨?_, h1, h2⟩
  simp only [escCh, if_neg h1, if_neg h2, if_neg h3, if_neg h4, if_neg h5,
    if_neg h6, if_neg h7]

theorem parseStrBody_escape : ∀ (s r : List Char),
    parseStrBody (escapeStr s ++ ('"' :: r)) = some (s, r) := by
  intro s
  induction s with
  | nil =>
    intro r
    rw [show escapeStr [] ++ ('"' :: r) = '"' :: r from rfl]
    rfl
  | cons c cs ih =>
    intro r
    rw [show escapeStr (c :: cs) = escCh c ++ escapeStr cs from rfl,
      List.append_assoc]
    rcases escCh_spec c with ⟨e, he, hu⟩ | ⟨he, hq, hb⟩
    · rw [he]
      rw [show (['\\', e] : List Char) ++ (escapeStr cs ++ ('"' :: r))
          = '\\' :: e :: (escapeStr cs ++ ('"' :: r)) from rfl]
      rw [parseStrBody]
      simp only [hu, ih r]
      rfl
    · rw [he]
      rw [show ([c] : List Char) ++ (escapeStr cs ++ ('"' :: r))
          = c :: (escapeStr cs ++ ('"' :: r)) from rfl]
      rw [parseStrBody]
      · rw [ih r]
        rfl
      · exact hq
      · exact fun h _ => hb h
      · exact fun _ _ h _ => hb h

theorem jsizeL_pos (xs : List JVal) : 1 ≤ jsizeL xs := by
  cases xs with
  | nil => exact le_refl 1
  | cons x xs =>
    rw [show jsizeL (x :: xs) = 1 + jsize x + jsizeL xs from rfl]
    omega

theorem natDecimal_head (n : Nat) :
    ∃ c t, natDecimal n = c :: t ∧ isDigitCh c = true := by
  have hspec := natDecimal_spec n
  cases hne : natDecimal n with
  | nil => exact absurd hne hspec.1
  | cons c t =>
    exact ⟨c, t, rfl, hspec.2 c (by rw [hne]; exact List.mem_cons_self c t)⟩

theorem digit_ne_special (c : Char) (h : isDigitCh c = true) :
    c ≠ 'n' ∧ c ≠ 't' ∧ c ≠ 'f' ∧ c ≠ '"' ∧ c ≠ '[' ∧ c ≠ '\x7b' ∧ c ≠ '-' ∧
    c ≠ ']' ∧ c ≠ ',' ∧ c ≠ '\x7d' := by
  refine ⟨?_, ?_, ?_, ?_, ?_, ?_, ?_, ?_, ?_, ?_⟩ <;>
    (rintro rfl; exact absurd h (by decide))

theorem serialize_head (v : JVal) :
    ∃ c t, serialize v = c :: t ∧ c ≠ ']' ∧ c ≠ ',' ∧ c ≠ '\x7d' := by
  cases v with
  | int n =>
    rw [show serialize (.int n) = intDec n from rfl, intDec]
    by_cases hn : n < 0
    · rw [if_pos hn]
      refine ⟨_, _, rfl, ?_, ?_, ?_⟩ <;> decide
    · rw [if_neg hn]
      obtain ⟨c, t, hct, hd⟩ := natDecimal_head n.toNat
      obtain ⟨_, _, _, _, _, _, _, h8, h9, h10⟩ := digit_ne_special c hd
      exact ⟨c, t, hct, h8, h9, h10⟩
  | bool b => cases b <;> (refine ⟨_, _, rfl, ?_, ?_, ?_⟩ <;> decide)
  | null => refine ⟨_, _, rfl, ?_, ?_, ?_⟩ <;> decide
  | str s => refine ⟨_, _, rfl, ?_, ?_, ?_⟩ <;> decide
  | arr xs => refine ⟨_, _, rfl, ?_, ?_, ?_⟩ <;> decide
  | obj kvs => refine ⟨_, _, rfl, ?_, ?_, ?_⟩ <;> decide

theorem serL_cons_text (x y : JVal) (ys : List JVal) (r : List Char) :
    serializeList (x :: y :: ys) ++ (']' :: r)
      = serialize x ++ (',' :: ' ' :: (serializeList (y :: ys) ++ (']' :: r))) := by
  rw [show serializeList (x :: y :: ys)
      = serialize x ++ ',' :: ' ' :: serializeList (y :: ys) from rfl]
  rw [List.append_assoc]
  rfl

theorem serE_one_text (k : List Char) (v : JVal) (r : List Char) :
    serializeEntries [(k, v)] ++ ('\x7d' :: r)
      = '"' :: (escapeStr k ++ ('"' :: (':' :: ' ' :: (serialize v ++ ('\x7d' :: r))))) := by
  rw [show serializeEntries [(k, v)]
      = '"' :: (escapeStr k ++ '"' :: ':' :: ' ' :: serialize v) from rfl]
  rw [show ('"' :: (escapeStr k ++ '"' :: ':' :: ' ' :: serialize v)) ++ ('\x7d' :: r)
      = '"' :: ((escapeStr k ++ '"' :: ':' :: ' ' :: serialize v) ++ ('\x7d' :: r)) from rfl]
  rw [List.append_assoc]
  rfl

theorem serE_cons_text (k : List Char) (v : JVal) (e : List Char × JVal)
    (rest : PyDict) (r : List Char) :
    serializeEntries ((k, v) :: e :: rest) ++ ('\x7d' :: r)
      = '"' :: (escapeStr k ++ ('"' :: (':' :: ' ' :: (serialize v ++
          (',' :: ' ' :: (serializeEntries (e :: rest) ++ ('\x7d' :: r))))))) := by
  rw [show serializeEntries ((k, v) :: e :: rest)
      = ('"' :: (escapeStr k ++ '"' :: ':' :: ' ' :: serialize v))
          ++ (',' :: ' ' :: serializeEntries (e :: rest)) from rfl]
  rw [List.append_assoc]
  rw [show ('"' :: (escapeStr k ++ '"' :: ':' :: ' ' :: serialize v))
        ++ ((',' :: ' ' :: serializeEntries (e :: rest)) ++ ('\x7d' :: r))
      = '"' :: ((escapeStr k ++ '"' :: ':' :: ' ' :: serialize v)
        ++ (',' :: ' ' :: (serializeEntries (e :: rest) ++ ('\x7d' :: r)))) from rfl]
  rw [List.append_assoc]
  rfl

theorem decode_roundtrip : ∀ fuel : Nat,
    (∀ v r, jsize v ≤ fuel → noDigitHead r = true →
       decodeV fuel (serialize v ++ r) = some (v, r)) ∧
    (∀ xs r, jsizeL xs ≤ fuel →
       decodeL fuel (serializeList xs ++ (']' :: r)) = some (xs, r)) ∧
    (∀ kvs r, jsizeE kvs ≤ fuel →
       decodeE fuel (serializeEntries kvs ++ ('\x7d' :: r)) = some (kvs, r)) := by
  intro fuel
  induction fuel with
  | zero =>
    refine ⟨?_, ?_, ?_⟩
    · intro v r hv _
      exact absurd hv (by have := jsize_pos v; omega)
    · intro xs r hx
      exact absurd hx (by have := jsizeL_pos xs; omega)
    · intro kvs r hk
      exact absurd hk (by have := jsizeE_pos kvs; omega)
  | succ fuel ih =>
    obtain ⟨ihV, ihL, ihE⟩ := ih
    refine ⟨?_, ?_, ?_⟩
    · intro v r hv hr
      cases v with
      | null => rfl
      | bool b => cases b <;> rfl
      | str s =>
        rw [show serialize (.str s) ++ r = '"' :: ((escapeStr s ++ ['"']) ++ r) from rfl]
        rw [List.append_assoc]
        rw [show (['"'] : List Char) ++ r = '"' :: r from rfl]
        rw [decodeV]
        rw [if_neg (by decide), if_neg (by decide), if_neg (by decide), if_pos rfl]
        rw [parseStrBody_escape]
        rfl
      | int n =>
        rw [show serialize (.int n) = intDec n from rfl, intDec]
        by_cases hn : n < 0
        · rw [if_pos hn]
          rw [show ('-' :: natDecimal n.natAbs) ++ r = '-' :: (natDecimal n.natAbs ++ r) from rfl]
          rw [decodeV]
          rw [if_neg (by decide), if_neg (by decide), if_neg (by decide),
            if_neg (by decide), if_neg (by decide), if_neg (by decide), if_pos rfl]
          rw [parseNat_roundtrip _ _ hr]
          show some (JVal.int (-(n.natAbs : Int)), r) = some (JVal.int n, r)
          have hcast : (-(n.natAbs : Int)) = n := by omega
          rw [hcast]
        · rw [if_neg hn]
          obtain ⟨c, t, hct, hd⟩ := natDecimal_head n.toNat
          obtain ⟨hd1, hd2, hd3, hd4, hd5, hd6, hd7, _, _, _⟩ := digit_ne_special c hd
          rw [hct]
          rw [show (c :: t) ++ r = c :: (t ++ r) from rfl]
          rw [decodeV]
          rw [if_neg hd1, if_neg hd2, if_neg hd3, if_neg hd4, if_neg hd5,
            if_neg hd6, if_neg hd7, if_pos hd]
          rw [show c :: (t ++ r) = (c :: t) ++ r from rfl, ← hct]
          rw [parseNat_roundtrip _ _ hr]
          show some (JVal.int ((n.toNat : Int)), r) = some (JVal.int n, r)
          have hcast : ((n.toNat : Int)) = n := by omega
          rw [hcast]
      | arr xs =>
        rw [show serialize (.arr xs) ++ r = '[' :: ((serializeList xs ++ [']']) ++ r) from rfl]
        rw [List.append_assoc]
        rw [show ([']'] : List Char) ++ r = ']' :: r from rfl]
        rw [decodeV]
        rw [if_neg (by decide), if_neg (by decide), if_neg (by decide),
          if_neg (by decide), if_pos rfl]
        have hsz : jsizeL xs ≤ fuel := by
          rw [show jsize (.arr xs) = 1 + jsizeL xs from rfl] at hv
          omega
        rw [ihL xs r hsz]
        rfl
      | obj kvs =>
        rw [show serialize (.obj kvs) ++ r
            = '\x7b' :: ((serializeEntries kvs ++ ['\x7d']) ++ r) from rfl]
        rw [List.append_assoc]
        rw [show (['\x7d'] : List Char) ++ r = '\x7d' :: r from rfl]
        rw [decodeV]
        rw [if_neg (by decide), if_neg (by decide), if_neg (by decide),
          if_neg (by decide), if_neg (by decide), if_pos rfl]
        have hsz : jsizeE kvs ≤ fuel := by
          rw [show jsize (.obj kvs) = 1 + jsizeE kvs from rfl] at hv
          omega
        rw [ihE kvs r hsz]
        rfl
    · intro xs r hx
      cases xs with
      | nil => rfl
      | cons x xs' =>
        cases xs' with
        | nil =>
          rw [show serializeList [x] ++ (']' :: r) = serialize x ++ (']' :: r) from rfl]
          obtain ⟨c, t, hct, hc1, hc2, hc3⟩ := serialize_head x
          have hvx : jsize x ≤ fuel := by
            rw [show jsizeL [x] = 1 + jsize x + jsizeL [] from rfl,
              show jsizeL ([] : List JVal) = 1 from rfl] at hx
            omega
          rw [hct]
          rw [show (c :: t) ++ (']' :: r) = c :: (t ++ (']' :: r)) from rfl]
          rw [decodeL]
          rw [if_neg hc1]
          have hdv : decodeV fuel (c :: (t ++ (']' :: r))) = some (x, ']' :: r) := by
            rw [show c :: (t ++ (']' :: r)) = (c :: t) ++ (']' :: r) from rfl, ← hct]
            exact ihV x (']' :: r) hvx rfl
          rw [hdv]
          rfl
        | cons y ys =>
          rw [serL_cons_text]
          obtain ⟨c, t, hct, hc1, hc2, hc3⟩ := serialize_head x
          have hsz : jsizeL (x :: y :: ys) = 1 + jsize x + jsizeL (y :: ys) := rfl
          have hvx : jsize x ≤ fuel := by
            rw [hsz] at hx
            have := jsizeL_pos (y :: ys)
            omega
          have hys : jsizeL (y :: ys) ≤ fuel := by
            rw [hsz] at hx
            have := jsize_pos x
            omega
          rw [hct]
          rw [show (c :: t) ++ (',' :: ' ' :: (serializeList (y :: ys) ++ (']' :: r)))
              = c :: (t ++ (',' :: ' ' :: (serializeList (y :: ys) ++ (']' :: r)))) from rfl]
          rw [decodeL]
          rw [if_neg hc1]
          have hdv : decodeV fuel
              (c :: (t ++ (',' :: ' ' :: (serializeList (y :: ys) ++ (']' :: r)))))
              = some (x, ',' :: ' ' :: (serializeList (y :: ys) ++ (']' :: r))) := by
            rw [show c :: (t ++ (',' :: ' ' :: (serializeList (y :: ys) ++ (']' :: r))))
                = (c :: t) ++ (',' :: ' ' :: (serializeList (y :: ys) ++ (']' :: r))) from rfl,
              ← hct]
            exact ihV x _ hvx rfl
          rw [hdv]
          rw [show decLStep (decodeL fuel)
              (some (x, ',' :: ' ' :: (serializeList (y :: ys) ++ (']' :: r))))
              = (decodeL fuel (serializeList (y :: ys) ++ (']' :: r))).map
                  (fun p => (x :: p.1, p.2)) from rfl]
          rw [ihL (y :: ys) r hys]
          rfl
    · intro kvs r hk
      cases kvs with
      | nil => rfl
      | cons kv rest =>
        obtain ⟨k, v⟩ := kv
        cases rest with
        | nil =>
          rw [serE_one_text]
          rw [decodeE]
          rw [if_neg (by decide), if_pos rfl]
          rw [parseStrBody_escape]
          rw [show decEStep (decodeV fuel) (decodeE fuel)
              (some (k, ':' :: ' ' :: (serialize v ++ ('\x7d' :: r))))
              = decEStep2 (decodeE fuel) k
                  (decodeV fuel (serialize v ++ ('\x7d' :: r))) from rfl]
          have hvv : jsize v ≤ fuel := by
            rw [show jsizeE [(k, v)] = 2 + jsize v + jsizeE [] from rfl,
              show jsizeE ([] : PyDict) = 1 from rfl] at hk
            omega
          rw [ihV v ('\x7d' :: r) hvv rfl]
          rfl
        | cons e rest' =>
          rw [serE_cons_text]
          rw [decodeE]
          rw [if_neg (by decide), if_pos rfl]
          rw [parseStrBody_escape]
          rw [show decEStep (decodeV fuel) (decodeE fuel)
              (some (k, ':' :: ' ' :: (serialize v ++
                (',' :: ' ' :: (serializeEntries (e :: rest') ++ ('\x7d' :: r))))))
              = decEStep2 (decodeE fuel) k
                  (decodeV fuel (serialize v ++
                    (',' :: ' ' :: (serializeEntries (e :: rest') ++ ('\x7d' :: r))))) from rfl]
          have hsz : jsizeE ((k, v) :: e :: rest') = 2 + jsize v + jsizeE (e :: rest') := rfl
          have hvv : jsize v ≤ fuel := by
            rw [hsz] at hk
            have := jsizeE_pos (e :: rest')
            omega
          have hrest : jsizeE (e :: rest') ≤ fuel := by
            rw [hsz] at hk
            have := jsize_pos v
            omega
          rw [ihV v _ hvv (by rfl)]
          rw [show decEStep2 (decodeE fuel) k
              (some (v, ',' :: ' ' :: (serializeEntries (e :: rest') ++ ('\x7d' :: r))))
              = (decodeE fuel (serializeEntries (e :: rest') ++ ('\x7d' :: r))).map
                  (fun p => ((k, v) :: p.1, p.2)) from rfl]
          rw [ihE (e :: rest') r hrest]
          rfl

/-- `serialize` is injective: its output can be decoded back. -/
theorem serialize_inj (v w : JVal) (h : serialize v = serialize w) : v = w := by
  have hv := (decode_roundtrip (max (jsize v) (jsize w))).1 v []
    (le_max_left _ _) rfl
  have hw := (decode_roundtrip (max (jsize v) (jsize w))).1 w []
    (le_max_right _ _) rfl
  rw [List.append_nil] at hv hw
  rw [h] at hv
  have h2 : some (v, ([] : List Char)) = some (w, ([] : List Char)) :=
    hv.symm.trans hw
  exact congrArg Prod.fst (Option.some.inj h2)

/-- Equal `json.dumps(…, sort_keys=True)` renderings mean equal canonical
forms, i.e. Python `==` on the underlying values. -/
theorem dumps_inj (v w : JVal) (h : dumps v = dumps w) : canon v = canon w :=
  serialize_inj (canon v) (canon w) h

/- Signature-string injectivity: separator-free parts can be recovered
from the joined string. -/

theorem append_sep_inj (sep : Char) :
    ∀ (a b x y : List Char), sep ∉ a → sep ∉ b →
      a ++ sep :: x = b ++ sep :: y → a = b ∧ x = y := by
  intro a
  induction a with
  | nil =>
    intro b x y _ hb h
    cases b with
    | nil =>
      rw [List.nil_append, List.nil_append] at h
      exact ⟨rfl, (List.cons.inj h).2⟩
    | cons d bs =>
      rw [List.nil_append, List.cons_append] at h
      have h1 : sep = d := (List.cons.inj h).1
      exact absurd (by rw [h1]; exact List.mem_cons_self d bs) hb
  | cons c as ih =>
    intro b x y ha hb h
    cases b with
    | nil =>
      rw [List.nil_append, List.cons_append] at h
      have h1 : c = sep := (List.cons.inj h).1
      exact absurd (by rw [← h1]; exact List.mem_cons_self c as) ha
    | cons d bs =>
      rw [List.cons_append, List.cons_append] at h
      have h1 : c = d := (List.cons.inj h).1
      have h2 := (List.cons.inj h).2
      have ha' : sep ∉ as := fun hm => ha (List.mem_cons_of_mem _ hm)
      have hb' : sep ∉ bs := fun hm => hb (List.mem_cons_of_mem _ hm)
      obtain ⟨hab, hxy⟩ := ih bs x y ha' hb' h2
      exact ⟨by rw [h1, hab], hxy⟩

theorem joinSep_sep_inj (sep : Char) :
    ∀ (ps qs : List (List Char)), ps ≠ [] → qs ≠ [] →
      (∀ p ∈ ps, sep ∉ p) → (∀ q ∈ qs, sep ∉ q) →
      joinSep [sep] ps = joinSep [sep] qs → ps = qs := by
  intro ps
  induction ps with
  | nil => intro qs hps _ _ _ _; exact absurd rfl hps
  | cons p ps' ih =>
    intro qs _ hqs hp hq h
    cases qs with
    | nil => exact absurd rfl hqs
    | cons q qs' =>
      cases ps' with
      | nil =>
        cases qs' with
        | nil =>
          rw [show joinSep [sep] [p] = p from rfl,
            show joinSep [sep] [q] = q from rfl] at h
          rw [h]
        | cons q2 qt =>
          rw [show joinSep [sep] [p] = p from rfl,
            show joinSep [sep] (q :: q2 :: qt)
              = q ++ [sep] ++ joinSep [sep] (q2 :: qt) from rfl,
            List.append_assoc,
            show ([sep] : List Char) ++ joinSep [sep] (q2 :: qt)
              = sep :: joinSep [sep] (q2 :: qt) from rfl] at h
          have : sep ∈ p := by
            rw [h]
            exact List.mem_append_right q (List.mem_cons_self _ _)
          exact absurd this (hp p (List.mem_cons_self _ _))
      | cons p2 pt =>
        cases qs' with
        | nil =>
          rw [show joinSep [sep] [q] = q from rfl,
            show joinSep [sep] (p :: p2 :: pt)
              = p ++ [sep] ++ joinSep [sep] (p2 :: pt) from rfl,
            List.append_assoc,
            show ([sep] : List Char) ++ joinSep [sep] (p2 :: pt)
              = sep :: joinSep [sep] (p2 :: pt) from rfl] at h
          have : sep ∈ q := by
            rw [← h]
            exact List.mem_append_right p (List.mem_cons_self _ _)
          exact absurd this (hq q (List.mem_cons_self _ _))
        | cons q2 qt =>
          rw [show joinSep [sep] (p :: p2 :: pt)
              = p ++ [sep] ++ joinSep [sep] (p2 :: pt) from rfl,
            show joinSep [sep] (q :: q2 :: qt)
              = q ++ [sep] ++ joinSep [sep] (q2 :: qt) from rfl,
            List.append_assoc, List.append_assoc,
            show ([sep] : List Char) ++ joinSep [sep] (p2 :: pt)
              = sep :: joinSep [sep] (p2 :: pt) from rfl,
            show ([sep] : List Char) ++ joinSep [sep] (q2 :: qt)
              = sep :: joinSep [sep] (q2 :: qt) from rfl] at h
          obtain ⟨hpq, hJ⟩ := append_sep_inj sep p q _ _
            (hp p (List.mem_cons_self _ _)) (hq q (List.mem_cons_self _ _)) h
          have htail := ih (q2 :: qt) (by simp) (by simp)
            (fun x hx => hp x (List.mem_cons_of_mem _ hx))
            (fun x hx => hq x (List.mem_cons_of_mem _ hx)) hJ
          rw [hpq, htail]

theorem sigParts_mem (o : PyDict) (keys : List (List Char)) (x : List Char)
    (hx : x ∈ sigParts o keys) :
    ∃ k ∈ keys, ∃ nv, contribNorm o k = some nv ∧ x = k ++ '=' :: nv := by
  rw [sigParts_eq] at hx
  obtain ⟨k, hk, hfk⟩ := List.mem_filterMap.mp hx
  cases hc : contribNorm o k with
  | none => rw [hc] at hfk; simp at hfk
  | some nv =>
    rw [hc] at hfk
    have hx' : k ++ '=' :: nv = x := Option.some.inj hfk
    exact ⟨k, hk, nv, hc, hx'.symm⟩

theorem sigParts_nil_contrib (o : PyDict) (keys : List (List Char))
    (h : sigParts o keys = []) :
    ∀ k ∈ keys, contribNorm o k = none := by
  intro k hk
  cases hc : contribNorm o k with
  | none => rfl
  | some nv =>
    have hmem : (k ++ '=' :: nv) ∈ sigParts o keys := by
      rw [sigParts_eq]
      exact List.mem_filterMap.mpr ⟨k, hk, by rw [hc]; rfl⟩
    rw [h] at hmem
    simp at hmem

theorem contrib_parts_inj (o1 o2 : PyDict) :
    ∀ (keys : List (List Char)), keys.Nodup → (∀ k ∈ keys, '=' ∉ k) →
      keys.filterMap (fun k => (contribNorm o1 k).map (fun nv => k ++ '=' :: nv))
        = keys.filterMap (fun k => (contribNorm o2 k).map (fun nv => k ++ '=' :: nv)) →
      ∀ k ∈ keys, contribNorm o1 k = contribNorm o2 k := by
  intro keys
  induction keys with
  | nil =>
    intro _ _ _ k hk
    simp at hk
  | cons k0 ks ih =>
    intro hnd hek h k hk
    rw [List.filterMap_cons, List.filterMap_cons] at h
    have hnd' : ks.Nodup := (List.nodup_cons.mp hnd).2
    have hk0 : k0 ∉ ks := (List.nodup_cons.mp hnd).1
    have hek' : ∀ x ∈ ks, '=' ∉ x := fun x hx => hek x (List.mem_cons_of_mem _ hx)
    have hek0 : '=' ∉ k0 := hek k0 (List.mem_cons_self _ _)
    rcases hc1 : contribNorm o1 k0 with _ | nv1 <;>
      rcases hc2 : contribNorm o2 k0 with _ | nv2
    · rw [hc1, hc2] at h
      simp only [Option.map_none', Option.map_some'] at h
      rcases List.mem_cons.mp hk with hk' | hk'
      · rw [hk', hc1, hc2]
      · exact ih hnd' hek' h k hk'
    · rw [hc1, hc2] at h
      simp only [Option.map_none', Option.map_some'] at h
      cases hq : ks.filterMap
          (fun x => (contribNorm o1 x).map (fun nv => x ++ '=' :: nv)) with
      | nil => rw [hq] at h; exact absurd h (by simp)
      | cons x rest =>
        rw [hq] at h
        have h1 : x = k0 ++ '=' :: nv2 := ((List.cons.inj h.symm).1).symm
        have hx : x ∈ ks.filterMap
            (fun y => (contribNorm o1 y).map (fun nv => y ++ '=' :: nv)) := by
          rw [hq]
          exact List.mem_cons_self _ _
        obtain ⟨k', hk', hfk'⟩ := List.mem_filterMap.mp hx
        cases hc' : contribNorm o1 k' with
        | none => rw [hc'] at hfk'; simp at hfk'
        | some nv' =>
          rw [hc'] at hfk'
          have hx' : k' ++ '=' :: nv' = x := Option.some.inj hfk'
          have heq : k0 ++ '=' :: nv2 = k' ++ '=' :: nv' := by
            rw [hx', h1]
          obtain ⟨hkk, _⟩ := append_sep_inj '=' k0 k' nv2 nv' hek0
            (hek' k' hk') heq
          exact absurd (by rw [hkk]; exact hk') hk0
    · rw [hc1, hc2] at h
      simp only [Option.map_none', Option.map_some'] at h
      cases hq : ks.filterMap
          (fun x => (contribNorm o2 x).map (fun nv => x ++ '=' :: nv)) with
      | nil => rw [hq] at h; exact absurd h (by simp)
      | cons x rest =>
        rw [hq] at h
        have h1 : x = k0 ++ '=' :: nv1 := ((List.cons.inj h).1).symm
        have hx : x ∈ ks.filterMap
            (fun y => (contribNorm o2 y).map (fun nv => y ++ '=' :: nv)) := by
          rw [hq]
          exact List.mem_cons_self _ _
        obtain ⟨k', hk', hfk'⟩ := List.mem_filterMap.mp hx
        cases hc' : contribNorm o2 k' with
        | none => rw [hc'] at hfk'; simp at hfk'
        | some nv' =>
          rw [hc'] at hfk'
          have hx' : k' ++ '=' :: nv' = x := Option.some.inj hfk'
          have heq : k0 ++ '=' :: nv1 = k' ++ '=' :: nv' := by
            rw [hx', h1]
          obtain ⟨hkk, _⟩ := append_sep_inj '=' k0 k' nv1 nv' hek0
            (hek' k' hk') heq
          exact absurd (by rw [hkk]; exact hk') hk0
    · rw [hc1, hc2] at h
      simp only [Option.map_none', Option.map_some'] at h
      have h1 := (List.cons.inj h).1
      have h2 := (List.cons.inj h).2
      obtain ⟨_, hnv⟩ := append_sep_inj '=' k0 k0 nv1 nv2 hek0 hek0 h1
      rcases List.mem_cons.mp hk with hk' | hk'
      · rw [hk', hc1, hc2, hnv]
      · exact ih hnd' hek' h2 k hk'

theorem object_signature_sig (o : PyDict) (keys : List (List Char))
    (h : sigParts o keys ≠ []) :
    object_signature o keys = pych "sig:" ++ joinSep ['|'] (sigParts o keys) := by
  have h' : (!(sigParts o keys).isEmpty) = true := by
    cases hsp : sigParts o keys with
    | nil => exact absurd hsp h
    | cons a l => rfl
  show (if !(sigParts o keys).isEmpty then pych "sig:" ++ joinSep ['|'] (sigParts o keys)
      else pych "json:" ++ dumps (.obj o))
    = pych "sig:" ++ joinSep ['|'] (sigParts o keys)
  rw [if_pos h']

theorem object_signature_json (o : PyDict) (keys : List (List Char))
    (h : sigParts o keys = []) :
    object_signature o keys = pych "json:" ++ dumps (.obj o) := by
  have h' : (!(sigParts o keys).isEmpty) = false := by rw [h]; rfl
  show (if !(sigParts o keys).isEmpty then pych "sig:" ++ joinSep ['|'] (sigParts o keys)
      else pych "json:" ++ dumps (.obj o))
    = pych "json:" ++ dumps (.obj o)
  rw [if_neg (by simp [h'])]

/-- No pipe separator occurs in the string (`List.all` form, so concrete
instances evaluate). -/
def pipeFree (s : List Char) : Bool := s.all (fun c => !(c == '|'))

theorem pipeFree_not_mem (s : List Char) (h : pipeFree s = true) : '|' ∉ s := by
  intro hmem
  rw [pipeFree, List.all_eq_true] at h
  have := h '|' hmem
  simp at this

theorem merge_pair_sig (o1 o2 : PyDict) (keys : List (List Char)) :
    merge_array_of_objects_keys [.arr [.obj o1], .arr [.obj o2]] keys
      = if object_signature o1 keys = object_signature o2 keys
        then [.obj (deep_merge_objects o1 o2)]
        else [.obj o1, .obj o2] := by
  rw [merge_array_of_objects_keys]
  rw [show ([JVal.arr [JVal.obj o1], JVal.arr [JVal.obj o2]] : List JVal).foldl
      (fun acc v => objItemsLoop keys acc (coerce_to_list v)) []
      = objItemsLoop keys (objItemsLoop keys [] [JVal.obj o1]) [JVal.obj o2] from rfl]
  rw [show objItemsLoop keys [] [JVal.obj o1]
      = [(object_signature o1 keys, o1)] from rfl]
  by_cases h : object_signature o1 keys = object_signature o2 keys
  · rw [if_pos h]
    have hg : dGet [(object_signature o1 keys, o1)] (object_signature o2 keys)
        = some o1 := by
      rw [dGet, if_pos h.symm]
    rw [objItemsLoop]
    simp only [hg]
    rw [show objItemsLoop keys (dSet [(object_signature o1 keys, o1)]
          (object_signature o2 keys) (deep_merge_objects o1 o2)) []
        = dSet [(object_signature o1 keys, o1)] (object_signature o2 keys)
            (deep_merge_objects o1 o2) from rfl]
    rw [dSet, if_pos h.symm]
    rfl
  · rw [if_neg h]
    have hg : dGet [(object_signature o1 keys, o1)] (object_signature o2 keys)
        = none := by
      rw [dGet, if_neg (fun hc => h hc.symm)]
      rfl
    rw [objItemsLoop]
    simp only [hg]
    rfl

/-- C3 (amended): dedup of an array-of-objects pair happens exactly when
the two items' signatures coincide.  Provided the chosen identity keys
are duplicate-free and no `'='` occurs in a key and no `'|'` in a key or
in a normalized contributed value, equal signatures imply the items
agree on every chosen key's normalized contribution; and an item that
contributes no key part is deduplicated only against another such item
with the same canonical JSON (Python `==` up to key order).  Without the
separator provisos the per-key agreement fails (see the C3
counterexample). -/
theorem c3_amended (o1 o2 : PyDict) (keys : List (List Char))
    (hnd : keys.Nodup)
    (hk : ∀ k ∈ keys, '=' ∉ k ∧ '|' ∉ k)
    (hv : ∀ k ∈ keys, (contribNorm o1 k).all pipeFree = true ∧
       (contribNorm o2 k).all pipeFree = true) :
    (merge_array_of_objects_keys [.arr [.obj o1], .arr [.obj o2]] keys
      = if object_signature o1 keys = object_signature o2 keys
        then [.obj (deep_merge_objects o1 o2)]
        else [.obj o1, .obj o2]) ∧
    (object_signature o1 keys = object_signature o2 keys →
      (∀ k ∈ keys, contribNorm o1 k = contribNorm o2 k) ∧
      (sigParts o1 keys = [] → sigParts o2 keys = [] ∧
         canon (.obj o1) = canon (.obj o2))) := by
  refine ⟨merge_pair_sig o1 o2 keys, ?_⟩
  intro hsig
  by_cases hp1 : sigParts o1 keys = []
  · by_cases hp2 : sigParts o2 keys = []
    · have hjson : dumps (.obj o1) = dumps (.obj o2) := by
        rw [object_signature_json _ _ hp1, object_signature_json _ _ hp2] at hsig
        exact List.append_cancel_left hsig
      refine ⟨?_, fun _ => ⟨hp2, dumps_inj _ _ hjson⟩⟩
      intro k hk'
      rw [sigParts_nil_contrib o1 keys hp1 k hk',
        sigParts_nil_contrib o2 keys hp2 k hk']
    · exfalso
      rw [object_signature_json _ _ hp1, object_signature_sig _ _ hp2] at hsig
      rw [show pych "json:" ++ dumps (.obj o1)
          = 'j' :: (pych "son:" ++ dumps (.obj o1)) from rfl,
        show pych "sig:" ++ joinSep ['|'] (sigParts o2 keys)
          = 's' :: (pych "ig:" ++ joinSep ['|'] (sigParts o2 keys)) from rfl] at hsig
      exact absurd (List.cons.inj hsig).1 (by decide)
  · by_cases hp2 : sigParts o2 keys = []
    · exfalso
      rw [object_signature_sig _ _ hp1, object_signature_json _ _ hp2] at hsig
      rw [show pych "sig:" ++ joinSep ['|'] (sigParts o1 keys)
          = 's' :: (pych "ig:" ++ joinSep ['|'] (sigParts o1 keys)) from rfl,
        show pych "json:" ++ dumps (.obj o2)
          = 'j' :: (pych "son:" ++ dumps (.obj o2)) from rfl] at hsig
      exact absurd (List.cons.inj hsig).1 (by decide)
    · have hpf1 : ∀ p ∈ sigParts o1 keys, '|' ∉ p := by
        intro p hp
        obtain ⟨k, hkm, nv, hcn, hpe⟩ := sigParts_mem o1 keys p hp
        rw [hpe]
        intro hmem
        rcases List.mem_append.mp hmem with hm | hm
        · exact (hk k hkm).2 hm
        · rcases List.mem_cons.mp hm with hm' | hm'
          · exact absurd hm' (by decide)
          · have hall := (hv k hkm).1
            rw [hcn] at hall
            exact pipeFree_not_mem nv hall hm'
      have hpf2 : ∀ p ∈ sigParts o2 keys, '|' ∉ p := by
        intro p hp
        obtain ⟨k, hkm, nv, hcn, hpe⟩ := sigParts_mem o2 keys p hp
        rw [hpe]
        intro hmem
        rcases List.mem_append.mp hmem with hm | hm
        · exact (hk k hkm).2 hm
        · rcases List.mem_cons.mp hm with hm' | hm'
          · exact absurd hm' (by decide)
          · have hall := (hv k hkm).2
            rw [hcn] at hall
            exact pipeFree_not_mem nv hall hm'
      have hjoin : joinSep ['|'] (sigParts o1 keys)
          = joinSep ['|'] (sigParts o2 keys) := by
        rw [object_signature_sig _ _ hp1, object_signature_sig _ _ hp2] at hsig
        exact List.append_cancel_left hsig
      have hparts := joinSep_sep_inj '|' (sigParts o1 keys) (sigParts o2 keys)
        hp1 hp2 hpf1 hpf2 hjoin
      rw [sigParts_eq, sigParts_eq] at hparts
      exact ⟨contrib_parts_inj o1 o2 keys hnd (fun k hk' => (hk k hk').1) hparts,
        fun h1 => absurd h1 hp1⟩

/-- Witness for the amended C3 statement at a concrete pair: the items
`{"id": " X "}` and `{"id": "x", "code": "b"}` share the normalized
identity value `x`, so they collapse to one deep-merged entry. -/
theorem c3_witness :
    (merge_array_of_objects_keys
        [.arr [.obj [(pych "id", JVal.str (pych " X "))]],
         .arr [.obj [(pych "id", JVal.str (pych "x")),
                     (pych "code", JVal.str (pych "b"))]]]
        [pych "id"]
      = if object_signature [(pych "id", JVal.str (pych " X "))] [pych "id"]
          = object_signature [(pych "id", JVal.str (pych "x")),
              (pych "code", JVal.str (pych "b"))] [pych "id"]
        then [.obj (deep_merge_objects [(pych "id", JVal.str (pych " X "))]
                [(pych "id", JVal.str (pych "x")),
                 (pych "code", JVal.str (pych "b"))])]
        else [.obj [(pych "id", JVal.str (pych " X "))],
              .obj [(pych "id", JVal.str (pych "x")),
                    (pych "code", JVal.str (pych "b"))]]) ∧
    (object_signature [(pych "id", JVal.str (pych " X "))] [pych "id"]
        = object_signature [(pych "id", JVal.str (pych "x")),
            (pych "code", JVal.str (pych "b"))] [pych "id"] →
      (∀ k ∈ [pych "id"], contribNorm [(pych "id", JVal.str (pych " X "))] k
          = contribNorm [(pych "id", JVal.str (pych "x")),
              (pych "code", JVal.str (pych "b"))] k) ∧
      (sigParts [(pych "id", JVal.str (pych " X "))] [pych "id"] = [] →
         sigParts [(pych "id", JVal.str (pych "x")),
             (pych "code", JVal.str (pych "b"))] [pych "id"] = [] ∧
         canon (.obj [(pych "id", JVal.str (pych " X "))])
           = canon (.obj [(pych "id", JVal.str (pych "x")),
               (pych "code", JVal.str (pych "b"))]))) :=
  c3_amended [(pych "id", JVal.str (pych " X "))]
    [(pych "id", JVal.str (pych "x")), (pych "code", JVal.str (pych "b"))]
    [pych "id"] (by decide) (by decide) (by decide)
